import Mathlib

/-!
Formal model of the obsidian-url-preview plugin (`main.ts`, modifier-key
revision). Strings are modelled as `List Char`; DOM elements, pointer events
and timers are modelled explicitly. The platform's WHATWG `URL` class (the
`new URL(x).href` round-trip used by `normalizeUrl`) is modelled by
`parseUrlM`/`serializeUrlM` below, covering the canonicalisations relevant to
the plugin: scheme and host lowercasing, default-port elision, empty-path
normalisation, tab/newline filtering and percent-encoding of spaces.
-/

namespace UrlPreview

/-- Strings of the modelled program: lists of characters. -/
abbrev Str := List Char

/-- Whitespace as removed by `String.prototype.trim` (common cases). -/
def isWsChar (c : Char) : Bool :=
  c = ' ' || c = '\t' || c = '\n' || c = '\r'

/-- Characters the WHATWG URL parser removes anywhere in its input. -/
def isTabNL (c : Char) : Bool :=
  c = '\t' || c = '\n' || c = '\r'

/-- Model of `candidate.trim()`. -/
def trimStr (l : Str) : Str :=
  ((l.dropWhile isWsChar).reverse.dropWhile isWsChar).reverse

/-- Model of the URL parser's removal of tabs and newlines. -/
def removeTabNL (l : Str) : Str :=
  l.filter (fun c => !isTabNL c)

/-- ASCII lowercasing of one character (as the URL parser applies to scheme
and host). -/
def lcChar (c : Char) : Char :=
  if 65 ≤ c.toNat ∧ c.toNat ≤ 90 then Char.ofNat (c.toNat + 32) else c

/-- Case-insensitive prefix matching: the pattern is given in lowercase;
returns the rest of the input after the pattern. -/
def dropPrefixCI : Str → Str → Option Str
  | [], s => some s
  | _ :: _, [] => none
  | p :: ps, c :: cs => if lcChar c = p then dropPrefixCI ps cs else none

/-- The characters of "http://". -/
def httpPre : Str := ['h', 't', 't', 'p', ':', '/', '/']

/-- The characters of "https://". -/
def httpsPre : Str := ['h', 't', 't', 'p', 's', ':', '/', '/']

/-- Model of the test `/^https?:\/\//i.test(trimmed)` in `normalizeUrl`. -/
def hasHttpPrefixCI (l : Str) : Bool :=
  (dropPrefixCI httpPre l).isSome || (dropPrefixCI httpsPre l).isSome

/-- Split at the first character satisfying `p`; the delimiter stays at the
head of the second component (`([], l)` shape when the head matches, and
`(l, [])` when no character matches). -/
def splitFirstKeep (p : Char → Bool) : Str → Str × Str
  | [] => ([], [])
  | c :: cs =>
    if p c then ([], c :: cs)
    else
      let r := splitFirstKeep p cs
      (c :: r.1, r.2)

/-- Split at the first occurrence of `d`, dropping it; `none` second component
when `d` does not occur. -/
def splitFirstDrop (d : Char) : Str → Str × Option Str
  | [] => ([], none)
  | c :: cs =>
    if c = d then ([], some cs)
    else
      let r := splitFirstDrop d cs
      (c :: r.1, r.2)

/-- Split at the last occurrence of `d`, dropping it; `none` when `d` does not
occur. -/
def splitLastDrop (d : Char) : Str → Option (Str × Str)
  | [] => none
  | c :: cs =>
    match splitLastDrop d cs with
    | some r => some (c :: r.1, r.2)
    | none => if c = d then some ([], cs) else none

/-- Percent-encode spaces (the URL serialisation never contains a raw
space). -/
def encSpaces : Str → Str
  | [] => []
  | c :: cs => if c = ' ' then '%' :: '2' :: '0' :: encSpaces cs else c :: encSpaces cs

/-- ASCII digit test by code point. -/
def digitB (c : Char) : Bool :=
  48 ≤ c.toNat && c.toNat ≤ 57

/-- Numeric value of a digit string. -/
def portVal (l : Str) : Nat :=
  l.foldl (fun a c => 10 * a + (c.toNat - 48)) 0

/-- Canonical digit string: strip leading zeros, empty becomes "0". -/
def portCanon (l : Str) : Str :=
  match l.dropWhile (fun c => c = '0') with
  | [] => ['0']
  | s => s

/-- The default port digits of a scheme ("443" for https, "80" for http). -/
def defPort (secure : Bool) : Str :=
  if secure then ['4', '4', '3'] else ['8', '0']

/-- Characters forbidden in a host by the WHATWG parser (the model rejects
them; percent signs are also rejected rather than decoded). -/
def badHostChar (c : Char) : Bool :=
  c = ' ' || c = '\t' || c = '\n' || c = '\r' || c = '#' || c = '/' || c = ':' ||
  c = '?' || c = '@' || c = '[' || c = '\\' || c = ']' || c = '^' || c = '|' ||
  c = '<' || c = '>' || c = '%'

/-- Delimiters that end the authority section. -/
def isAuthEnd (c : Char) : Bool :=
  c = '/' || c = '?' || c = '#'

/-- Parsed URL record: the components of a canonical http(s) URL as the model
of the platform `URL` object. -/
structure UrlM where
  secure : Bool
  userinfo : Option Str
  host : Str
  port : Option Str
  path : Str
  query : Option Str
  fragment : Option Str
deriving DecidableEq, Repr

/-- Port section of parsing: `none` result is a parse failure, `some none` is
"no (or default) port". -/
def parsePort (secure : Bool) : Option Str → Option (Option Str)
  | none => some none
  | some [] => some none
  | some pd =>
    if pd.all digitB then
      let cp := portCanon pd
      if portVal cp ≤ 65535 then
        if cp = defPort secure then some none else some (some cp)
      else none
    else none

/-- Parse the part of an http(s) URL after its scheme. -/
def parseAfterScheme (secure : Bool) (rest : Str) : Option UrlM :=
  let a := splitFirstKeep isAuthEnd rest
  let uiHp : Option Str × Str :=
    match splitLastDrop '@' a.1 with
    | some r => (some r.1, r.2)
    | none => (none, a.1)
  let hp := splitFirstDrop ':' uiHp.2
  let host := hp.1.map lcChar
  if host = [] then none
  else if host.any badHostChar then none
  else
    match parsePort secure hp.2 with
    | none => none
    | some port =>
      let bf := splitFirstDrop '#' a.2
      let pq := splitFirstDrop '?' bf.1
      let path := if pq.1 = [] then ['/'] else pq.1
      some ⟨secure, uiHp.1.map encSpaces, host, port,
            encSpaces path, pq.2.map encSpaces, bf.2.map encSpaces⟩

/-- Model of `new URL(s)` for the inputs `normalizeUrl` passes it (which
always carry an http(s) prefix): `none` models the constructor throwing. -/
def parseUrlM (s : Str) : Option UrlM :=
  let s' := removeTabNL s
  match dropPrefixCI httpsPre s' with
  | some rest => parseAfterScheme true rest
  | none =>
    match dropPrefixCI httpPre s' with
    | some rest => parseAfterScheme false rest
    | none => none

/-- The serialised userinfo section (with its trailing `@`). -/
def uiPart : Option Str → Str
  | some x => x ++ ['@']
  | none => []

/-- The serialised port section (with its leading `:`). -/
def portPart : Option Str → Str
  | some p => ':' :: p
  | none => []

/-- The serialised query section (with its leading `?`). -/
def queryPart : Option Str → Str
  | some q => '?' :: q
  | none => []

/-- The serialised fragment section (with its leading `#`). -/
def fragPart : Option Str → Str
  | some f => '#' :: f
  | none => []

/-- Model of the `href` serialisation of a parsed URL. -/
def serializeUrlM (u : UrlM) : Str :=
  (if u.secure then httpsPre else httpPre) ++ uiPart u.userinfo ++ u.host ++
    portPart u.port ++ u.path ++ queryPart u.query ++ fragPart u.fragment

/-- `normalizeUrl` from `main.ts`: trim, require a case-insensitive http(s)
prefix, then return the parsed URL's `href` (null on a parse failure). -/
def normalizeUrl (s : Str) : Option Str :=
  let trimmed := trimStr s
  if hasHttpPrefixCI trimmed then (parseUrlM trimmed).map serializeUrlM
  else none

/-! ## DOM elements and `extractUrlFromElement` -/

/-- Model of a DOM element as `extractUrlFromElement` observes it. `href` is
the resolved `href` property of an anchor (`[]` when absent, which is falsy);
`innerAnchorHref` models the result of the `querySelector('a[href]')` lookup
(the found anchor's `href` property, possibly empty). -/
structure Elem where
  isAnchor : Bool
  href : Str
  attrs : List (Str × Str)
  classes : List Str
  innerAnchorHref : Option Str
  text : Str
deriving DecidableEq, Repr

/-- `element.getAttribute(name)`. -/
def getAttribute (e : Elem) (name : Str) : Option Str :=
  (e.attrs.find? (fun p => p.1 = name)).map (fun p => p.2)

/-- The attribute name `data-href`. -/
def nmDataHref : Str := ("data-href").toList

/-- The attribute name `data-url`. -/
def nmDataUrl : Str := ("data-url").toList

/-- The attribute name `href`. -/
def nmHrefAttr : Str := ("href").toList

/-- The attribute name `aria-label`. -/
def nmAriaLabel : Str := ("aria-label").toList

/-- The attribute name `title`. -/
def nmTitle : Str := ("title").toList

/-- The attribute list inspected by `extractUrlFromElement`, in source
order. -/
def inspectedAttrs : List Str :=
  [nmDataHref, nmDataUrl, nmHrefAttr, nmAriaLabel, nmTitle]

/-- One step of the attribute loop: `value ? normalizeUrl(value) : null`. -/
def attrUrl (e : Elem) (name : Str) : Option Str :=
  match getAttribute e name with
  | some v => if v = [] then none else normalizeUrl v
  | none => none

/-- The attribute loop of `extractUrlFromElement`: first hit wins. -/
def attrPhase (e : Elem) : Option Str :=
  inspectedAttrs.findSome? (attrUrl e)

/-- The class name `external-link`. -/
def extLinkClass : Str :=
  ('e' : Char) :: ('x' : Char) :: ('t' : Char) :: ('e' : Char) :: ('r' : Char) ::
    ('n' : Char) :: ('a' : Char) :: ('l' : Char) :: ('-' : Char) :: ('l' : Char) ::
    ('i' : Char) :: ('n' : Char) :: ('k' : Char) :: []

/-- The class name `cm-link`. -/
def cmLinkClass : Str :=
  ('c' : Char) :: ('m' : Char) :: ('-' : Char) :: ('l' : Char) :: ('i' : Char) ::
    ('n' : Char) :: ('k' : Char) :: []

/-- The ancestor loop of `extractUrlFromElement`. `some r` models a `return`
from inside the loop with value `r` (which may be null); `none` models the
loop running past `document.body`. -/
def ancestorScan : List Elem → Option (Option Str)
  | [] => none
  | a :: rest =>
    if a.isAnchor ∧ a.href ≠ [] then some (normalizeUrl a.href)
    else
      if (extLinkClass ∈ a.classes ∨ cmLinkClass ∈ a.classes) then
        match a.innerAnchorHref with
        | some h => if h ≠ [] then some (normalizeUrl h) else ancestorScan rest
        | none => ancestorScan rest
      else ancestorScan rest

/-- `extractUrlFromElement` from `main.ts`: anchors return their resolved
`href` verbatim; otherwise the attribute loop, then the ancestor scan
(starting at the element itself), then the text-content fallback. `ancestors`
are the element's proper ancestors up to (excluding) `document.body`. -/
def extractUrlFromElement (e : Elem) (ancestors : List Elem) : Option Str :=
  if e.isAnchor then some e.href
  else
    match attrPhase e with
    | some u => some u
    | none =>
      match ancestorScan (e :: ancestors) with
      | some r => r
      | none =>
        let t := trimStr e.text
        if t = [] then none else normalizeUrl t

/-! ## `calculatePreviewBounds` -/

/-- An anchor rectangle as `calculatePreviewBounds` reads it. -/
structure RectM where
  left : Int
  top : Int
  bottom : Int
deriving DecidableEq, Repr

/-- The window size passed to `calculatePreviewBounds`. -/
structure SizeM where
  width : Int
  height : Int
deriving DecidableEq, Repr

/-- The placement rectangle returned by `calculatePreviewBounds`. -/
structure BoundsM where
  left : Int
  top : Int
  width : Int
  height : Int
  showAbove : Bool
deriving DecidableEq, Repr

/-- `calculatePreviewBounds` from `main.ts`, parameterised by the configured
maxima. -/
def calculatePreviewBounds (maxPreviewWidth maxPreviewHeight : Int)
    (rect : RectM) (windowSize : SizeM) : BoundsM :=
  let margin : Int := 5
  let maxWidth := min maxPreviewWidth (windowSize.width - margin * 2)
  let maxHeight := min maxPreviewHeight (windowSize.height - margin * 2)
  let spaceBelow := windowSize.height - rect.bottom - margin
  let spaceAbove := rect.top - margin
  let showAbove := spaceBelow < maxHeight ∧ spaceAbove > spaceBelow
  let top :=
    if showAbove then max margin (rect.top - maxHeight - margin)
    else min (rect.bottom + margin) (windowSize.height - maxHeight - margin)
  let left0 := rect.left
  let left1 :=
    if left0 + maxWidth > windowSize.width - margin then
      windowSize.width - maxWidth - margin
    else left0
  let left := max margin left1
  ⟨left, top, maxWidth, maxHeight, decide showAbove⟩

/-! ## The panel lifecycle controller -/

/-- The configurable modifier key. -/
inductive MKey where
  | meta
  | ctrl
  | alt
  | shift
deriving DecidableEq, Repr

/-- Plugin settings (`LinkPreviewSettings`). -/
structure Config where
  maxPreviewHeight : Int
  maxPreviewWidth : Int
  hoverDelay : Nat
  requireModifierKey : Bool
  modifierKey : MKey
  closeOnModifierRelease : Bool
deriving DecidableEq, Repr

/-- Keys as the global key handlers distinguish them. -/
inductive Key where
  | escape
  | mod (m : MKey)
  | other
deriving DecidableEq, Repr

/-- `isModifierKeyEvent`: the pressed key is the configured modifier. -/
def isModifierKeyEvent (cfg : Config) (k : Key) : Bool :=
  k = Key.mod cfg.modifierKey

/-- The loading indicator's presentation inside a panel. -/
inductive Loading where
  | spinner
  | failed
  | removed
deriving DecidableEq, Repr

/-- The Active Preview record (`this.activePreview` plus the panel's
observable presentation state). -/
structure Prev where
  panelId : Nat
  link : Nat
  url : Str
  loading : Loading
  githubCrop : Bool
deriving DecidableEq, Repr

/-- A live bounding rectangle as `getBoundingClientRect` reports it at
hit-test time. -/
structure Rect4 where
  left : Int
  right : Int
  top : Int
  bottom : Int
deriving DecidableEq, Repr

/-- Controller state: the plugin's mutable fields plus the set of panel
elements currently attached to the document and a log of every panel ever
created. `hoverT` is the pending show timer (absolute fire time, link element
identity, resolved URL); `cleanupT` the pending grace timer's fire time. -/
structure St where
  cfg : Config
  active : Option Prev
  hoverT : Option (Nat × Nat × Str)
  cleanupT : Option Nat
  lastX : Int
  lastY : Int
  nextPanelId : Nat
  panels : List Nat
  created : List (Nat × Str)
deriving DecidableEq, Repr

/-- The initial controller state under settings `cfg`. -/
def initSt (cfg : Config) : St :=
  ⟨cfg, none, none, none, 0, 0, 0, [], []⟩

/-- `url.includes('github.com')` from `showPreview`. -/
def ghChars : Str :=
  ('g' : Char) :: ('i' : Char) :: ('t' : Char) :: ('h' : Char) :: ('u' : Char) ::
    ('b' : Char) :: ('.' : Char) :: ('c' : Char) :: ('o' : Char) :: ('m' : Char) :: []

/-- `needle.isPrefixOf hay` written out (for `String.prototype.includes`). -/
def startsWithL : Str → Str → Bool
  | [], _ => true
  | _ :: _, [] => false
  | a :: as, b :: bs => a = b && startsWithL as bs

/-- Model of `url.includes('github.com')` (substring search). -/
def containsSub (n : Str) : Str → Bool
  | [] => startsWithL n []
  | c :: cs => startsWithL n (c :: cs) || containsSub n cs

/-- The GitHub-specific branch of `showPreview`. -/
def hasGithubMarker (url : Str) : Bool :=
  containsSub ghChars url

/-- `cleanupActivePreview`: run the active preview's cleanup (detach its
panel), then clear both timers. -/
def cleanupActivePreview (s : St) : St :=
  let s1 :=
    match s.active with
    | some p => { s with panels := s.panels.erase p.panelId, active := none }
    | none => s
  { s1 with hoverT := none, cleanupT := none }

/-- `showPreview`: construct the panel (with the GitHub cropping class iff
the URL contains "github.com"), attach it, and record it as the active
preview. -/
def showPreview (s : St) (el : Nat) (url : Str) : St :=
  let pid := s.nextPanelId
  { s with
    active := some ⟨pid, el, url, Loading.spinner, hasGithubMarker url⟩,
    panels := s.panels ++ [pid],
    created := s.created ++ [(pid, url)],
    nextPanelId := pid + 1 }

/-- `startCleanupTimer`: re-arm the 300 ms grace timer. -/
def startCleanupTimer (s : St) (t : Nat) : St :=
  { s with cleanupT := some (t + 300) }

/-- Point-in-rectangle test used by `isMouseOverPreviewOrLink`. -/
def inRectB (x y : Int) (r : Rect4) : Bool :=
  r.left ≤ x && x ≤ r.right && r.top ≤ y && y ≤ r.bottom

/-- `isMouseOverPreviewOrLink`, with the two live rectangles supplied by the
environment at fire time. -/
def isMouseOverPreviewOrLink (s : St) (previewRect linkRect : Rect4) : Bool :=
  match s.active with
  | none => false
  | some _ => inRectB s.lastX s.lastY previewRect || inRectB s.lastX s.lastY linkRect

/-- `handleLinkHover`. `tgtInPrev` models `activePreview?.element.contains
(target)`; `modHeld` models `isModifierKeyPressed(event)`; `link` is the
result of `findLinkElement` (element identity and resolved URL). -/
def handleLinkHover (s : St) (t : Nat) (tgtInPrev modHeld : Bool)
    (link : Option (Nat × Str)) : St :=
  if s.active.isSome ∧ tgtInPrev then s
  else if s.cfg.requireModifierKey ∧ ¬modHeld then s
  else
    match link with
    | none => s
    | some (el, url) =>
      let s1 := { s with hoverT := none }
      match s1.active with
      | some p =>
        if p.link = el then { s1 with cleanupT := none }
        else
          let s2 := cleanupActivePreview s1
          { s2 with hoverT := some (t + s2.cfg.hoverDelay, el, url) }
      | none =>
        let s2 := cleanupActivePreview s1
        { s2 with hoverT := some (t + s2.cfg.hoverDelay, el, url) }

/-- The show timer firing at time `t` (a cancelled or re-armed timer never
fires: the guard requires the armed fire time to be exactly `t`). -/
def hoverFireStep (s : St) (t : Nat) : St :=
  match s.hoverT with
  | some h =>
    if h.1 = t then { showPreview s h.2.1 h.2.2 with hoverT := none } else s
  | none => s

/-- The grace timer firing at time `t`, with the live rectangles of the panel
and the origin link as the environment reports them at fire time. -/
def cleanupFireStep (s : St) (t : Nat) (previewRect linkRect : Rect4) : St :=
  match s.cleanupT with
  | some ft =>
    if ft = t then
      if s.active.isSome ∧ isMouseOverPreviewOrLink s previewRect linkRect then
        { s with cleanupT := none }
      else
        let s1 := cleanupActivePreview s
        { s1 with cleanupT := none }
    else s
  | none => s

/-- `handleModifierKeyDown`: when nothing is showing, locate a link under the
cursor (`linkUnder` models `findLinkElement(elementFromPoint(...))`) and arm
the show timer for it. -/
def handleModifierKeyDown (s : St) (t : Nat) (linkUnder : Option (Nat × Str)) : St :=
  if s.active.isSome then s
  else
    match linkUnder with
    | none => s
    | some (el, url) =>
      { s with hoverT := some (t + s.cfg.hoverDelay, el, url) }

/-- The global `keydown` handler: ESC tears down only when a preview exists;
a configured-modifier press (only in modifier-required mode) arms a show
timer for the link under the cursor. -/
def keyDownStep (s : St) (t : Nat) (k : Key) (linkUnder : Option (Nat × Str)) : St :=
  let s1 :=
    if k = Key.escape ∧ s.active.isSome then cleanupActivePreview s else s
  if s1.cfg.requireModifierKey ∧ isModifierKeyEvent s1.cfg k then
    handleModifierKeyDown s1 t linkUnder
  else s1

/-- `handleModifierKeyUp` behind the global `keyup` handler's gate. -/
def keyUpStep (s : St) (k : Key) : St :=
  if s.cfg.requireModifierKey ∧ isModifierKeyEvent s.cfg k then
    if s.cfg.closeOnModifierRelease then cleanupActivePreview s else s
  else s

/-- The link's `mouseleave` listener: ignored when the pointer moved into the
active panel, otherwise the grace timer is armed. -/
def linkLeaveStep (s : St) (t : Nat) (toPreview : Bool) : St :=
  if toPreview ∧ s.active.isSome then s else startCleanupTimer s t

/-- The `iframe.onerror` handler of panel `pid`: replaces the loading
indicator's text with the failure message. -/
def iframeErrorStep (s : St) (pid : Nat) : St :=
  match s.active with
  | some p =>
    if p.panelId = pid ∧ p.loading = Loading.spinner then
      { s with active := some { p with loading := Loading.failed } }
    else s
  | none => s

/-- The settled `iframe.onload` handler of panel `pid`: removes the loading
indicator. -/
def iframeLoadedStep (s : St) (pid : Nat) : St :=
  match s.active with
  | some p =>
    if p.panelId = pid ∧ p.loading = Loading.spinner then
      { s with active := some { p with loading := Loading.removed } }
    else s
  | none => s

/-- Events delivered to the controller. Each carries the environment's
contribution (locator results, containment tests, live rectangles). -/
inductive Ev where
  | mouseMove (x y : Int)
  | hover (tgtInPrev modHeld : Bool) (link : Option (Nat × Str))
  | hoverFire
  | cleanupFire (previewRect linkRect : Rect4)
  | keyDown (k : Key) (linkUnder : Option (Nat × Str))
  | keyUp (k : Key)
  | linkMouseLeave (toPreview : Bool)
  | previewEnter
  | previewLeave
  | iframeError (pid : Nat)
  | iframeLoadSettled (pid : Nat)
  | unload
deriving DecidableEq, Repr

/-- One controller step on a timestamped event. -/
def step (s : St) : Nat × Ev → St
  | (_, Ev.mouseMove x y) => { s with lastX := x, lastY := y }
  | (t, Ev.hover tp mh link) => handleLinkHover s t tp mh link
  | (t, Ev.hoverFire) => hoverFireStep s t
  | (t, Ev.cleanupFire pr lr) => cleanupFireStep s t pr lr
  | (t, Ev.keyDown k lu) => keyDownStep s t k lu
  | (_, Ev.keyUp k) => keyUpStep s k
  | (t, Ev.linkMouseLeave tp) => linkLeaveStep s t tp
  | (_, Ev.previewEnter) => { s with cleanupT := none }
  | (t, Ev.previewLeave) => startCleanupTimer s t
  | (_, Ev.iframeError pid) => iframeErrorStep s pid
  | (_, Ev.iframeLoadSettled pid) => iframeLoadedStep s pid
  | (_, Ev.unload) => cleanupActivePreview s

/-- Run a timestamped event trace from a state. -/
def run (s : St) (tr : List (Nat × Ev)) : St :=
  tr.foldl step s

/-- The controller's reachability invariant: an armed show timer implies no
active preview, and the attached panels are exactly the active preview's
panel (none when idle). -/
def Inv (s : St) : Prop :=
  (s.hoverT.isSome = true → s.active = none) ∧
  (∀ p, s.active = some p → s.panels = [p.panelId]) ∧
  (s.active = none → s.panels = [])

/-! ## Concrete inputs used as witnesses and counterexamples -/

/-- Settings with a 500 ms hover delay and no modifier requirement. -/
def cfgNoMod : Config :=
  ⟨960, 720, 500, false, MKey.ctrl, true⟩

/-- The example link target. -/
def exampleUrl : Str := ("https://example.com/").toList

/-- A small rectangle far away from the test pointer position. -/
def farRect : Rect4 := ⟨0, 10, 0, 10⟩

/-- Hover for 400 ms, move away, then let both timers fire. -/
def traceLeaveEarly : List (Nat × Ev) :=
  [(0, Ev.mouseMove 50 50), (0, Ev.hover false false (some (1, exampleUrl))),
   (400, Ev.mouseMove 2000 2000), (400, Ev.linkMouseLeave false),
   (500, Ev.hoverFire), (700, Ev.cleanupFire farRect farRect)]

/-- Hover continuously; the show timer fires at 500 ms. -/
def traceStayHover : List (Nat × Ev) :=
  [(0, Ev.mouseMove 50 50), (0, Ev.hover false false (some (1, exampleUrl))),
   (500, Ev.hoverFire)]

/-- Hover, press ESC at 100 ms while only the show timer is armed, then let
the show timer fire. -/
def traceEscPending : List (Nat × Ev) :=
  [(0, Ev.hover false false (some (7, exampleUrl))),
   (100, Ev.keyDown Key.escape none),
   (500, Ev.hoverFire)]

/-- A non-anchor element carrying only a `link-destination` attribute with a
normalizable URL value. -/
def elemLinkDest : Elem :=
  ⟨false, [], [(("link-destination").toList, ("http://ld.example/").toList)],
   [], none, []⟩

/-- A canonical URL whose host is not `github.com` but which contains
`github.com` in its path. -/
def evilUrl : Str := ("http://evil.com/github.com").toList

/-- Well-formedness of a parsed URL record: exactly the canonicity facts the
parser establishes, and what the serialisation needs to re-parse to the same
record. -/
structure UrlWF (u : UrlM) : Prop where
  host_ne : u.host ≠ []
  host_lc : u.host.map lcChar = u.host
  host_clean : u.host.any badHostChar = false
  ui_clean : ∀ ui, u.userinfo = some ui →
    ∀ c ∈ ui, c ≠ '/' ∧ c ≠ '?' ∧ c ≠ '#' ∧ isWsChar c = false
  port_wf : ∀ p, u.port = some p →
    p.all digitB = true ∧ portCanon p = p ∧ portVal p ≤ 65535 ∧ p ≠ defPort u.secure
  path_head : ∃ rest, u.path = '/' :: rest
  path_clean : ∀ c ∈ u.path, c ≠ '?' ∧ c ≠ '#' ∧ isWsChar c = false
  query_clean : ∀ q, u.query = some q → ∀ c ∈ q, c ≠ '#' ∧ isWsChar c = false
  frag_clean : ∀ f, u.fragment = some f → ∀ c ∈ f, isWsChar c = false

/-! ## Controller lemmas -/

theorem cleanupActivePreview_active (s : St) :
    (cleanupActivePreview s).active = none := by
  unfold cleanupActivePreview
  cases hA : s.active <;> simp [hA]

theorem cleanupActivePreview_hoverT (s : St) :
    (cleanupActivePreview s).hoverT = none := by
  unfold cleanupActivePreview
  cases hA : s.active <;> simp [hA]

theorem cleanupActivePreview_cleanupT (s : St) :
    (cleanupActivePreview s).cleanupT = none := by
  unfold cleanupActivePreview
  cases hA : s.active <;> simp [hA]

theorem cleanupActivePreview_cfg (s : St) :
    (cleanupActivePreview s).cfg = s.cfg := by
  unfold cleanupActivePreview
  cases hA : s.active <;> simp [hA]

theorem cleanupActivePreview_panels (s : St)
    (h2 : ∀ p, s.active = some p → s.panels = [p.panelId])
    (h3 : s.active = none → s.panels = []) :
    (cleanupActivePreview s).panels = [] := by
  unfold cleanupActivePreview
  cases hA : s.active with
  | none => simp [hA, h3 hA]
  | some p => simp [hA, h2 p hA]

theorem inv_cleanupActivePreview (s : St) (h : Inv s) :
    Inv (cleanupActivePreview s) := by
  obtain ⟨_, h2, h3⟩ := h
  refine ⟨?_, ?_, ?_⟩
  · intro _
    exact cleanupActivePreview_active s
  · intro p hp
    rw [cleanupActivePreview_active s] at hp
    cases hp
  · intro _
    exact cleanupActivePreview_panels s h2 h3

theorem inv_rearm (s1 : St)
    (h2 : ∀ p, s1.active = some p → s1.panels = [p.panelId])
    (h3 : s1.active = none → s1.panels = [])
    (hT : Option (Nat × Nat × Str)) :
    Inv { cleanupActivePreview s1 with hoverT := hT } := by
  refine ⟨fun _ => ?_, fun q hq => ?_, fun _ => ?_⟩
  · show (cleanupActivePreview s1).active = none
    exact cleanupActivePreview_active s1
  · have hq' : (cleanupActivePreview s1).active = some q := hq
    rw [cleanupActivePreview_active s1] at hq'
    cases hq'
  · show (cleanupActivePreview s1).panels = []
    exact cleanupActivePreview_panels s1 h2 h3

theorem inv_cleanup_clear (s1 : St)
    (h2 : ∀ p, s1.active = some p → s1.panels = [p.panelId])
    (h3 : s1.active = none → s1.panels = []) :
    Inv { cleanupActivePreview s1 with cleanupT := none } := by
  refine ⟨fun _ => ?_, fun q hq => ?_, fun _ => ?_⟩
  · show (cleanupActivePreview s1).active = none
    exact cleanupActivePreview_active s1
  · have hq' : (cleanupActivePreview s1).active = some q := hq
    rw [cleanupActivePreview_active s1] at hq'
    cases hq'
  · show (cleanupActivePreview s1).panels = []
    exact cleanupActivePreview_panels s1 h2 h3

theorem rearm_cfg (s1 : St) (hT : Option (Nat × Nat × Str)) :
    ({ cleanupActivePreview s1 with hoverT := hT } : St).cfg = s1.cfg := by
  show (cleanupActivePreview s1).cfg = s1.cfg
  exact cleanupActivePreview_cfg s1

theorem cleanup_clear_cfg (s1 : St) :
    ({ cleanupActivePreview s1 with cleanupT := none } : St).cfg = s1.cfg := by
  show (cleanupActivePreview s1).cfg = s1.cfg
  exact cleanupActivePreview_cfg s1

theorem inv_handleModifierKeyDown (s1 : St) (t : Nat) (lu : Option (Nat × Str))
    (h : Inv s1) : Inv (handleModifierKeyDown s1 t lu) := by
  obtain ⟨g1, g2, g3⟩ := h
  simp only [handleModifierKeyDown]
  split_ifs with hAct
  · exact ⟨g1, g2, g3⟩
  · cases lu with
    | none => exact ⟨g1, g2, g3⟩
    | some eu =>
      obtain ⟨el, url⟩ := eu
      have hN : s1.active = none := by
        cases hA : s1.active with
        | none => rfl
        | some p => exact absurd (by simp [hA]) hAct
      refine ⟨fun _ => hN, fun q hq => ?_, fun _ => g3 hN⟩
      have hq' : s1.active = some q := hq
      rw [hN] at hq'
      cases hq'

theorem handleModifierKeyDown_cfg (s1 : St) (t : Nat) (lu : Option (Nat × Str)) :
    (handleModifierKeyDown s1 t lu).cfg = s1.cfg := by
  simp only [handleModifierKeyDown]
  split_ifs
  · rfl
  · cases lu with
    | none => rfl
    | some eu => rfl

theorem inv_step (s : St) (te : Nat × Ev) (h : Inv s) : Inv (step s te) := by
  obtain ⟨t, e⟩ := te
  obtain ⟨h1, h2, h3⟩ := h
  cases e with
  | mouseMove x y => exact ⟨h1, h2, h3⟩
  | hover tp mh link =>
    simp only [step, handleLinkHover]
    split_ifs with hA hB
    · exact ⟨h1, h2, h3⟩
    · exact ⟨h1, h2, h3⟩
    · cases link with
      | none => exact ⟨h1, h2, h3⟩
      | some eu =>
        obtain ⟨el, url⟩ := eu
        simp only
        cases hAct : s.active with
        | some p =>
          simp only [hAct]
          by_cases hl : p.link = el
          · simp only [hl, if_pos rfl]
            refine ⟨fun hh => ?_, fun q hq => ?_, fun hn => ?_⟩
            · simp at hh
            · have hpq : p = q := by simpa using hq
              subst hpq
              simpa using h2 p hAct
            · simp at hn
          · simp only [if_neg hl]
            apply inv_rearm
            · intro q hq
              have hpq : p = q := by simpa using hq
              subst hpq
              simpa using h2 p hAct
            · intro hq
              simp at hq
        | none =>
          simp only [hAct]
          apply inv_rearm
          · intro q hq
            simp at hq
          · intro _
            simpa using h3 hAct
  | hoverFire =>
    simp only [step, hoverFireStep]
    cases hT : s.hoverT with
    | none => exact ⟨h1, h2, h3⟩
    | some hv =>
      by_cases hft : hv.1 = t
      · have hAct : s.active = none := h1 (by simp [hT])
        simp only [hft, if_pos rfl]
        refine ⟨fun hh => ?_, fun q hq => ?_, fun hn => ?_⟩
        · simp at hh
        · have hq' : q = ⟨s.nextPanelId, hv.2.1, hv.2.2, Loading.spinner,
              hasGithubMarker hv.2.2⟩ := by
            have : (showPreview s hv.2.1 hv.2.2).active = some q := hq
            simp only [showPreview] at this
            simpa using this.symm
          subst hq'
          show (showPreview s hv.2.1 hv.2.2).panels = _
          simp [showPreview, h3 hAct]
        · have : (showPreview s hv.2.1 hv.2.2).active = none := hn
          simp [showPreview] at this
      · simp only [if_neg hft]
        exact ⟨h1, h2, h3⟩
  | cleanupFire pr lr =>
    simp only [step, cleanupFireStep]
    cases hT : s.cleanupT with
    | none => exact ⟨h1, h2, h3⟩
    | some ft =>
      dsimp only
      by_cases hft : ft = t
      · subst hft
        rw [if_pos rfl]
        split_ifs with hOver
        · exact ⟨h1, h2, h3⟩
        · exact inv_cleanup_clear s h2 h3
      · rw [if_neg hft]
        exact ⟨h1, h2, h3⟩
  | keyDown k lu =>
    simp only [step, keyDownStep]
    split_ifs
    · exact inv_handleModifierKeyDown _ t lu (inv_cleanupActivePreview s ⟨h1, h2, h3⟩)
    · exact inv_cleanupActivePreview s ⟨h1, h2, h3⟩
    · exact inv_handleModifierKeyDown _ t lu ⟨h1, h2, h3⟩
    · exact ⟨h1, h2, h3⟩
  | keyUp k =>
    simp only [step, keyUpStep]
    split_ifs with hG hC
    · exact inv_cleanupActivePreview s ⟨h1, h2, h3⟩
    · exact ⟨h1, h2, h3⟩
    · exact ⟨h1, h2, h3⟩
  | linkMouseLeave tp =>
    simp only [step, linkLeaveStep, startCleanupTimer]
    split_ifs with hG
    · exact ⟨h1, h2, h3⟩
    · exact ⟨h1, h2, h3⟩
  | previewEnter => exact ⟨h1, h2, h3⟩
  | previewLeave => exact ⟨h1, h2, h3⟩
  | iframeError pid =>
    simp only [step, iframeErrorStep]
    cases hAct : s.active with
    | none => exact ⟨h1, h2, h3⟩
    | some p =>
      dsimp only
      split_ifs with hG
      · refine ⟨fun hh => ?_, fun q hq => ?_, fun hq => ?_⟩
        · exact absurd (h1 (by simpa using hh)) (by simp [hAct])
        · have hq' : q = { p with loading := Loading.failed } := by simpa using hq.symm
          subst hq'
          simpa using h2 p hAct
        · simp at hq
      · exact ⟨h1, h2, h3⟩
  | iframeLoadSettled pid =>
    simp only [step, iframeLoadedStep]
    cases hAct : s.active with
    | none => exact ⟨h1, h2, h3⟩
    | some p =>
      dsimp only
      split_ifs with hG
      · refine ⟨fun hh => ?_, fun q hq => ?_, fun hq => ?_⟩
        · exact absurd (h1 (by simpa using hh)) (by simp [hAct])
        · have hq' : q = { p with loading := Loading.removed } := by simpa using hq.symm
          subst hq'
          simpa using h2 p hAct
        · simp at hq
      · exact ⟨h1, h2, h3⟩
  | unload => exact inv_cleanupActivePreview s ⟨h1, h2, h3⟩

theorem inv_run_of (s : St) (h : Inv s) (tr : List (Nat × Ev)) : Inv (run s tr) := by
  induction tr generalizing s with
  | nil => exact h
  | cons te rest ih => exact ih (step s te) (inv_step s te h)

theorem inv_initSt (cfg : Config) : Inv (initSt cfg) :=
  ⟨by simp [initSt], by simp [initSt], by simp [initSt]⟩

theorem inv_run (cfg : Config) (tr : List (Nat × Ev)) :
    Inv (run (initSt cfg) tr) :=
  inv_run_of (initSt cfg) (inv_initSt cfg) tr

theorem cfg_step (s : St) (te : Nat × Ev) : (step s te).cfg = s.cfg := by
  obtain ⟨t, e⟩ := te
  cases e with
  | mouseMove x y => rfl
  | hover tp mh link =>
    simp only [step, handleLinkHover]
    split_ifs
    · rfl
    · rfl
    · cases link with
      | none => rfl
      | some eu =>
        obtain ⟨el, url⟩ := eu
        simp only
        cases hAct : s.active with
        | some p =>
          simp only [hAct]
          by_cases hl : p.link = el
          · simp [hl]
          · simp only [if_neg hl]
            rw [cleanupActivePreview_cfg]
        | none =>
          simp only [hAct]
          rw [cleanupActivePreview_cfg]
  | hoverFire =>
    simp only [step, hoverFireStep]
    cases hT : s.hoverT with
    | none => rfl
    | some hv =>
      by_cases hft : hv.1 = t
      · simp [hft, showPreview]
      · simp [hft]
  | cleanupFire pr lr =>
    simp only [step, cleanupFireStep]
    cases hT : s.cleanupT with
    | none => rfl
    | some ft =>
      dsimp only
      by_cases hft : ft = t
      · subst hft
        rw [if_pos rfl]
        split_ifs
        · rfl
        · exact cleanup_clear_cfg s
      · rw [if_neg hft]
  | keyDown k lu =>
    simp only [step, keyDownStep]
    split_ifs
    · rw [handleModifierKeyDown_cfg, cleanupActivePreview_cfg]
    · exact cleanupActivePreview_cfg s
    · exact handleModifierKeyDown_cfg s t lu
    · rfl
  | keyUp k =>
    simp only [step, keyUpStep]
    split_ifs
    · exact cleanupActivePreview_cfg s
    · rfl
    · rfl
  | linkMouseLeave tp =>
    simp only [step, linkLeaveStep, startCleanupTimer]
    split_ifs <;> rfl
  | previewEnter => rfl
  | previewLeave => rfl
  | iframeError pid =>
    simp only [step, iframeErrorStep]
    cases hAct : s.active with
    | none => rfl
    | some p =>
      dsimp only
      split_ifs
      · rfl
      · rfl
  | iframeLoadSettled pid =>
    simp only [step, iframeLoadedStep]
    cases hAct : s.active with
    | none => rfl
    | some p =>
      dsimp only
      split_ifs
      · rfl
      · rfl
  | unload => exact cleanupActivePreview_cfg s

theorem handleLinkHover_other_link (s : St) (t : Nat) (mh : Bool) (el : Nat)
    (u : Str) (p : Prev) (hAct : s.active = some p) (hl : p.link ≠ el)
    (hG : s.cfg.requireModifierKey = false ∨ mh = true) (hT : s.hoverT = none) :
    handleLinkHover s t false mh (some (el, u)) =
      { cleanupActivePreview s with hoverT := some (t + s.cfg.hoverDelay, el, u) } := by
  have hc2 : ¬(s.cfg.requireModifierKey = true ∧ ¬mh = true) := by
    rcases hG with h | h
    · simp [h]
    · simp [h]
  obtain ⟨c, a, hT0, cT, lx, ly, np, pans, cr⟩ := s
  simp only at hAct hT hc2 ⊢
  subst hAct
  subst hT
  simp only [handleLinkHover, cleanupActivePreview]
  rw [if_neg (by simp), if_neg hc2]
  rw [if_neg hl]

theorem handleLinkHover_same_link (s : St) (t : Nat) (mh : Bool) (u : Str)
    (p : Prev) (hAct : s.active = some p)
    (hG : s.cfg.requireModifierKey = false ∨ mh = true) (hT : s.hoverT = none) :
    handleLinkHover s t false mh (some (p.link, u)) = { s with cleanupT := none } := by
  have hc2 : ¬(s.cfg.requireModifierKey = true ∧ ¬mh = true) := by
    rcases hG with h | h
    · simp [h]
    · simp [h]
  obtain ⟨c, a, hT0, cT, lx, ly, np, pans, cr⟩ := s
  simp only at hAct hT hc2 ⊢
  subst hAct
  subst hT
  simp only [handleLinkHover]
  rw [if_neg (by simp), if_neg hc2]
  rw [if_pos trivial]

theorem hoverT_none_of_active (cfg : Config) (tr : List (Nat × Ev)) (p : Prev)
    (hAct : (run (initSt cfg) tr).active = some p) :
    (run (initSt cfg) tr).hoverT = none := by
  obtain ⟨h1, _, _⟩ := inv_run cfg tr
  cases hT : (run (initSt cfg) tr).hoverT with
  | none => rfl
  | some hv =>
    rw [h1 (by simp [hT])] at hAct
    cases hAct

theorem cfg_run (cfg : Config) (tr : List (Nat × Ev)) :
    (run (initSt cfg) tr).cfg = cfg := by
  suffices h : ∀ s : St, (run s tr).cfg = s.cfg by
    rw [h (initSt cfg)]
    rfl
  intro s
  induction tr generalizing s with
  | nil => rfl
  | cons te rest ih => rw [run, List.foldl_cons, ← run, ih, cfg_step]

/-! ## Substring search (`String.prototype.includes`) -/

theorem startsWithL_iff (n l : Str) : startsWithL n l = true ↔ ∃ r, l = n ++ r := by
  induction n generalizing l with
  | nil =>
    simp only [startsWithL, List.nil_append]
    exact ⟨fun _ => ⟨l, rfl⟩, fun _ => trivial⟩
  | cons a as ih =>
    cases l with
    | nil =>
      simp [startsWithL]
    | cons b bs =>
      simp only [startsWithL, Bool.and_eq_true, decide_eq_true_eq, ih, List.cons_append,
        List.cons.injEq]
      constructor
      · rintro ⟨hab, r, hr⟩
        exact ⟨r, hab.symm, hr⟩
      · rintro ⟨r, hab, hr⟩
        exact ⟨hab.symm, r, hr⟩

theorem containsSub_iff (n l : Str) : containsSub n l = true ↔ ∃ a b, l = a ++ n ++ b := by
  induction l with
  | nil =>
    simp only [containsSub, startsWithL_iff]
    constructor
    · rintro ⟨r, hr⟩
      refine ⟨[], r, ?_⟩
      rw [List.nil_append]
      exact hr
    · rintro ⟨a, b, hab⟩
      have ha : a = [] ∧ n ++ b = [] := by
        have h' : a ++ (n ++ b) = [] := by
          rw [← List.append_assoc]
          exact hab.symm
        exact List.append_eq_nil.mp h'
      exact ⟨b, ha.2.symm⟩
  | cons c cs ih =>
    simp only [containsSub, Bool.or_eq_true, startsWithL_iff, ih]
    constructor
    · rintro (⟨r, hr⟩ | ⟨a, b, hab⟩)
      · refine ⟨[], r, ?_⟩
        rw [List.nil_append]
        exact hr
      · refine ⟨c :: a, b, ?_⟩
        rw [List.cons_append, List.cons_append, hab]
    · rintro ⟨a, b, hab⟩
      cases a with
      | nil => exact Or.inl ⟨b, by simpa using hab⟩
      | cons x xs =>
        right
        have hx : c = x ∧ cs = xs ++ n ++ b := by simpa using hab
        exact ⟨xs, b, hx.2⟩

/-! ## Claim theorems: the panel lifecycle controller -/

/-- C1. At most one Active Preview exists at any time: along every event
trace from the initial state at most one panel element is attached, and a
hover on a different link than the active preview's first tears the preview
down (active preview cleared, its panel detached) and then arms the show
timer for the new candidate. -/
theorem active_preview_unique (cfg : Config) (tr : List (Nat × Ev)) :
    (run (initSt cfg) tr).panels.length ≤ 1 ∧
    ∀ t mh el u p, (run (initSt cfg) tr).active = some p → p.link ≠ el →
      (cfg.requireModifierKey = false ∨ mh = true) →
      step (run (initSt cfg) tr) (t, Ev.hover false mh (some (el, u))) =
        { cleanupActivePreview (run (initSt cfg) tr) with
            hoverT := some (t + cfg.hoverDelay, el, u) } := by
  obtain ⟨h1, h2, h3⟩ := inv_run cfg tr
  constructor
  · cases hAct : (run (initSt cfg) tr).active with
    | some p =>
      rw [h2 p hAct]
      simp
    | none =>
      rw [h3 hAct]
      simp
  · intro t mh el u p hAct hl hG
    have hT := hoverT_none_of_active cfg tr p hAct
    have hG' : (run (initSt cfg) tr).cfg.requireModifierKey = false ∨ mh = true := by
      rw [cfg_run]
      exact hG
    have heq := handleLinkHover_other_link (run (initSt cfg) tr) t mh el u p hAct hl hG' hT
    rw [cfg_run] at heq
    exact heq

/-- C1 witness: after a trace that reaches a visible preview, hovering a
different link leaves no active preview and an armed show timer for it. -/
theorem active_preview_unique_witness :
    step (run (initSt cfgNoMod) traceStayHover)
        (600, Ev.hover false false (some (2, evilUrl))) =
      { cleanupActivePreview (run (initSt cfgNoMod) traceStayHover) with
          hoverT := some (600 + cfgNoMod.hoverDelay, 2, evilUrl) } :=
  (active_preview_unique cfgNoMod traceStayHover).2 600 false 2 evilUrl
    ⟨0, 1, exampleUrl, Loading.spinner, false⟩ (by decide) (by decide) (Or.inl (by decide))

/-- C2 (amended). With hover delay 500 ms: hovering at t=0 and leaving at
t=400 does not cancel the armed show timer — no panel exists before the
timer fires, but the panel is still created when it fires at t=500, and the
grace timer armed at departure destroys it at t=700; hovering continuously
creates exactly one panel targeting the link's resolved URL. -/
theorem hover_delay_scenarios :
    (run (initSt cfgNoMod) (traceLeaveEarly.take 4)).created = [] ∧
    (run (initSt cfgNoMod) (traceLeaveEarly.take 5)).created = [(0, exampleUrl)] ∧
    (run (initSt cfgNoMod) traceLeaveEarly).created = [(0, exampleUrl)] ∧
    (run (initSt cfgNoMod) traceLeaveEarly).active = none ∧
    (run (initSt cfgNoMod) traceLeaveEarly).panels = [] ∧
    (run (initSt cfgNoMod) traceStayHover).created = [(0, exampleUrl)] ∧
    (run (initSt cfgNoMod) traceStayHover).active =
      some ⟨0, 1, exampleUrl, Loading.spinner, false⟩ := by
  decide

/-- C2 counterexample: in the hover-400-ms-then-leave scenario a panel is
created after all (the claim asserts no panel is ever created). -/
theorem hover_abandoned_still_creates_panel :
    (run (initSt cfgNoMod) traceLeaveEarly).created ≠ [] := by
  decide

/-- C4 (amended). An ESC key-down destroys the Active Preview and clears
both timers whenever a preview exists (Visible or HidePending); when no
preview exists — in particular in ShowPending — the ESC branch does not run
and the state is unchanged, so a pending show timer still fires. -/
theorem esc_teardown_by_state (s : St) (t : Nat) (lu : Option (Nat × Str)) :
    (s.active.isSome = true →
      step s (t, Ev.keyDown Key.escape lu) = cleanupActivePreview s) ∧
    (s.active = none → step s (t, Ev.keyDown Key.escape lu) = s) := by
  have hne : ∀ s1 : St, ¬(s1.cfg.requireModifierKey = true ∧
      isModifierKeyEvent s1.cfg Key.escape = true) := by
    intro s1 hc
    have hm : isModifierKeyEvent s1.cfg Key.escape = false := by
      simp [isModifierKeyEvent]
    rw [hm] at hc
    exact Bool.false_ne_true hc.2
  constructor
  · intro hAct
    simp only [step, keyDownStep]
    rw [if_neg (hne _), if_pos ⟨trivial, hAct⟩]
  · intro hAct
    simp only [step, keyDownStep]
    rw [if_neg (hne _), if_neg (fun hc => by rw [hAct] at hc; simpa using hc.2)]

/-- C4 counterexample: ESC pressed at t=100 while only the show timer is
armed (ShowPending: no active preview) changes nothing, and the panel is
still created when the timer fires at t=500. -/
theorem esc_ignored_in_show_pending_cex :
    (run (initSt cfgNoMod) (traceEscPending.take 1)).hoverT.isSome = true ∧
    (run (initSt cfgNoMod) (traceEscPending.take 1)).active = none ∧
    run (initSt cfgNoMod) (traceEscPending.take 2) =
      run (initSt cfgNoMod) (traceEscPending.take 1) ∧
    (run (initSt cfgNoMod) traceEscPending).created = [(0, exampleUrl)] := by
  decide

/-- C5. Hovering the link that already owns the Active Preview (in any
reachable state, with modifier gating satisfied) changes nothing except that
the pending grace timer is cancelled: the panel is not recreated, no show
timer is armed, and the Active Preview is untouched. -/
theorem same_link_rehover_only_cancels_hide (cfg : Config) (tr : List (Nat × Ev))
    (t : Nat) (mh : Bool) (u : Str) (p : Prev)
    (hAct : (run (initSt cfg) tr).active = some p)
    (hG : cfg.requireModifierKey = false ∨ mh = true) :
    step (run (initSt cfg) tr) (t, Ev.hover false mh (some (p.link, u))) =
      { run (initSt cfg) tr with cleanupT := none } := by
  have hT := hoverT_none_of_active cfg tr p hAct
  have hG' : (run (initSt cfg) tr).cfg.requireModifierKey = false ∨ mh = true := by
    rw [cfg_run]
    exact hG
  exact handleLinkHover_same_link (run (initSt cfg) tr) t mh u p hAct hG' hT

/-- C5 witness at a concrete visible-preview state. -/
theorem same_link_rehover_only_cancels_hide_witness :
    step (run (initSt cfgNoMod) traceStayHover)
        (600, Ev.hover false false (some (1, exampleUrl))) =
      { run (initSt cfgNoMod) traceStayHover with cleanupT := none } :=
  same_link_rehover_only_cancels_hide cfgNoMod traceStayHover 600 false exampleUrl
    ⟨0, 1, exampleUrl, Loading.spinner, false⟩ (by decide) (Or.inl (by decide))

/-- C9. On embedded-content load failure the only state change is the
loading indicator's text: the Active Preview stays set (same panel, link and
URL), the panel stays attached, and no timer or teardown runs. -/
theorem iframe_error_only_updates_indicator (s : St) (t : Nat) (p : Prev)
    (hAct : s.active = some p) (hL : p.loading = Loading.spinner) :
    step s (t, Ev.iframeError p.panelId) =
      { s with active := some { p with loading := Loading.failed } } := by
  obtain ⟨c, a, hT0, cT, lx, ly, np, pans, cr⟩ := s
  simp only at hAct ⊢
  subst hAct
  simp only [step, iframeErrorStep]
  rw [if_pos ⟨trivial, hL⟩]

/-- C9 witness at a concrete visible-preview state. -/
theorem iframe_error_only_updates_indicator_witness :
    step (run (initSt cfgNoMod) traceStayHover) (600, Ev.iframeError 0) =
      { run (initSt cfgNoMod) traceStayHover with
          active := some ⟨0, 1, exampleUrl, Loading.failed, false⟩ } :=
  iframe_error_only_updates_indicator (run (initSt cfgNoMod) traceStayHover) 600
    ⟨0, 1, exampleUrl, Loading.spinner, false⟩ (by decide) (by decide)

/-- C10. When the require-modifier setting is disabled, every key-up event is
a no-op: the close-on-release teardown is unreachable because the key-up
handler is gated on the require-modifier flag. -/
theorem keyup_noop_without_require_modifier (s : St) (t : Nat) (k : Key)
    (h : s.cfg.requireModifierKey = false) :
    step s (t, Ev.keyUp k) = s := by
  simp only [step, keyUpStep]
  rw [if_neg]
  rw [h]
  simp

/-- C10 witness: with a visible preview, close-on-release enabled but
require-modifier disabled, releasing the configured modifier key changes
nothing. -/
theorem keyup_noop_without_require_modifier_witness :
    step (run (initSt cfgNoMod) traceStayHover) (600, Ev.keyUp (Key.mod MKey.ctrl)) =
      run (initSt cfgNoMod) traceStayHover :=
  keyup_noop_without_require_modifier (run (initSt cfgNoMod) traceStayHover) 600
    (Key.mod MKey.ctrl) (by decide)

/-! ## Claim theorems: bounds calculation -/

/-- C3 (amended). The horizontal bounds (left ≥ margin and left + width ≤
viewportWidth − margin) and the size caps (width ≤ maxPreviewWidth and
height ≤ maxPreviewHeight) hold for every anchor rectangle and viewport
size; the vertical bounds (top ≥ margin and top + height ≤ viewportHeight −
margin) hold for every anchor whose vertical extent meets the viewport
(anchorBottom ≥ 0 and anchorTop ≤ viewportHeight). For anchors entirely
beyond the top or bottom edge the vertical bounds can fail (see the
counterexample). -/
theorem preview_bounds_within_viewport (cw ch : Int) (rect : RectM) (win : SizeM) :
    (5 ≤ (calculatePreviewBounds cw ch rect win).left ∧
     (calculatePreviewBounds cw ch rect win).left +
       (calculatePreviewBounds cw ch rect win).width ≤ win.width - 5 ∧
     (calculatePreviewBounds cw ch rect win).width ≤ cw ∧
     (calculatePreviewBounds cw ch rect win).height ≤ ch) ∧
    (0 ≤ rect.bottom → rect.top ≤ win.height →
      5 ≤ (calculatePreviewBounds cw ch rect win).top ∧
      (calculatePreviewBounds cw ch rect win).top +
        (calculatePreviewBounds cw ch rect win).height ≤ win.height - 5) := by
  simp only [calculatePreviewBounds]
  split_ifs <;> refine ⟨⟨?_, ?_, ?_, ?_⟩, fun hb ht => ⟨?_, ?_⟩⟩ <;> omega

/-- C3 witness: all six bounds at a concrete in-viewport anchor, and the
unconditional horizontal bounds at an anchor far beyond the bottom edge. -/
theorem preview_bounds_within_viewport_witness :
    (5 ≤ (calculatePreviewBounds 720 960 ⟨50, 100, 120⟩ ⟨1000, 800⟩).left ∧
     5 ≤ (calculatePreviewBounds 720 960 ⟨50, 100, 120⟩ ⟨1000, 800⟩).top ∧
     (calculatePreviewBounds 720 960 ⟨50, 100, 120⟩ ⟨1000, 800⟩).left +
       (calculatePreviewBounds 720 960 ⟨50, 100, 120⟩ ⟨1000, 800⟩).width ≤ 1000 - 5 ∧
     (calculatePreviewBounds 720 960 ⟨50, 100, 120⟩ ⟨1000, 800⟩).top +
       (calculatePreviewBounds 720 960 ⟨50, 100, 120⟩ ⟨1000, 800⟩).height ≤ 800 - 5 ∧
     (calculatePreviewBounds 720 960 ⟨50, 100, 120⟩ ⟨1000, 800⟩).width ≤ 720 ∧
     (calculatePreviewBounds 720 960 ⟨50, 100, 120⟩ ⟨1000, 800⟩).height ≤ 960) ∧
    (5 ≤ (calculatePreviewBounds 720 960 ⟨50, 9000, 9100⟩ ⟨1000, 800⟩).left ∧
     (calculatePreviewBounds 720 960 ⟨50, 9000, 9100⟩ ⟨1000, 800⟩).left +
       (calculatePreviewBounds 720 960 ⟨50, 9000, 9100⟩ ⟨1000, 800⟩).width ≤ 1000 - 5) :=
  ⟨⟨(preview_bounds_within_viewport 720 960 ⟨50, 100, 120⟩ ⟨1000, 800⟩).1.1,
    ((preview_bounds_within_viewport 720 960 ⟨50, 100, 120⟩ ⟨1000, 800⟩).2
      (by decide) (by decide)).1,
    (preview_bounds_within_viewport 720 960 ⟨50, 100, 120⟩ ⟨1000, 800⟩).1.2.1,
    ((preview_bounds_within_viewport 720 960 ⟨50, 100, 120⟩ ⟨1000, 800⟩).2
      (by decide) (by decide)).2,
    (preview_bounds_within_viewport 720 960 ⟨50, 100, 120⟩ ⟨1000, 800⟩).1.2.2.1,
    (preview_bounds_within_viewport 720 960 ⟨50, 100, 120⟩ ⟨1000, 800⟩).1.2.2.2⟩,
   (preview_bounds_within_viewport 720 960 ⟨50, 9000, 9100⟩ ⟨1000, 800⟩).1.1,
   (preview_bounds_within_viewport 720 960 ⟨50, 9000, 9100⟩ ⟨1000, 800⟩).1.2.1⟩

/-- C3 counterexample: an anchor entirely above the viewport (bottom = -100)
yields a placement with top = -95 < margin, and an anchor entirely below the
viewport yields top + height beyond viewportHeight - margin — both violate
the claimed bounds for all anchor rectangles. -/
theorem preview_bounds_offscreen_anchor_cex :
    (calculatePreviewBounds 600 300 ⟨50, -200, -100⟩ ⟨1000, 2000⟩).top = -95 ∧
    ¬5 ≤ (calculatePreviewBounds 600 300 ⟨50, -200, -100⟩ ⟨1000, 2000⟩).top ∧
    (calculatePreviewBounds 600 300 ⟨50, 2100, 2200⟩ ⟨1000, 2000⟩).top +
      (calculatePreviewBounds 600 300 ⟨50, 2100, 2200⟩ ⟨1000, 2000⟩).height =
      2095 ∧
    ¬(calculatePreviewBounds 600 300 ⟨50, 2100, 2200⟩ ⟨1000, 2000⟩).top +
      (calculatePreviewBounds 600 300 ⟨50, 2100, 2200⟩ ⟨1000, 2000⟩).height ≤
      2000 - 5 := by
  decide

/-! ## Claim theorems: the GitHub presentation hint -/

/-- C8 (amended). The cropping class decision is a plain substring test on
the whole resolved URL: it is applied iff `github.com` occurs anywhere in the
URL string (so every URL with host `github.com` receives it, but so do URLs
of other hosts that merely contain the text); the created panel records
exactly this decision. -/
theorem github_marker_substring :
    (∀ url : Str, hasGithubMarker url = true ↔ ∃ a b, url = a ++ ghChars ++ b) ∧
    (∀ u : UrlM, u.host = ghChars → hasGithubMarker (serializeUrlM u) = true) ∧
    (∀ s : St, ∀ t el u2, s.hoverT = some (t, el, u2) →
      (step s (t, Ev.hoverFire)).active =
        some ⟨s.nextPanelId, el, u2, Loading.spinner, hasGithubMarker u2⟩) := by
  refine ⟨fun url => containsSub_iff ghChars url, fun u hh => ?_, fun s t el u2 hT => ?_⟩
  · rw [hasGithubMarker, containsSub_iff]
    refine ⟨(if u.secure then httpsPre else httpPre) ++ uiPart u.userinfo,
      portPart u.port ++ u.path ++ queryPart u.query ++ fragPart u.fragment, ?_⟩
    rw [← hh]
    simp [serializeUrlM, List.append_assoc]
  · simp only [step, hoverFireStep, hT]
    rfl

/-- C8 counterexample: `http://evil.com/github.com` is a canonical resolved
URL whose host is `evil.com`, yet it receives the cropping class — so the
class is not applied iff the host matches `github.com`. -/
theorem github_marker_not_host_based_cex :
    hasGithubMarker evilUrl = true ∧
    (parseUrlM evilUrl).map UrlM.host = some (("evil.com").toList) ∧
    ("evil.com").toList ≠ ghChars ∧
    normalizeUrl evilUrl = some evilUrl := by
  decide

/-! ## Claim theorems: URL extraction -/

/-- C7 (amended). A native anchor's resolved `href` is returned verbatim,
taking priority over everything; for a non-anchor element whose attribute
phase succeeds, its result is returned; and the attribute phase inspects, in
this fixed order, exactly `data-href`, `data-url`, `href`, `aria-label`,
`title` (no `link-destination`), returning the first value that normalizes
to an absolute HTTP/HTTPS URL. -/
theorem extract_url_attr_order :
    (∀ (e : Elem) (anc : List Elem), e.isAnchor = true →
      extractUrlFromElement e anc = some e.href) ∧
    (∀ (e : Elem) (anc : List Elem) (u : Str), e.isAnchor = false →
      attrPhase e = some u → extractUrlFromElement e anc = some u) ∧
    (∀ e : Elem, attrPhase e =
      match attrUrl e nmDataHref with
      | some u => some u
      | none =>
        match attrUrl e nmDataUrl with
        | some u => some u
        | none =>
          match attrUrl e nmHrefAttr with
          | some u => some u
          | none =>
            match attrUrl e nmAriaLabel with
            | some u => some u
            | none =>
              match attrUrl e nmTitle with
              | some u => some u
              | none => none) := by
  refine ⟨fun e anc h => ?_, fun e anc u h1 h2 => ?_, fun e => ?_⟩
  · simp [extractUrlFromElement, h]
  · simp [extractUrlFromElement, h1, h2]
  · simp only [attrPhase, inspectedAttrs, List.findSome?_cons, List.findSome?_nil]
    rcases attrUrl e nmDataHref with _ | u1 <;>
      rcases attrUrl e nmDataUrl with _ | u2 <;>
        rcases attrUrl e nmHrefAttr with _ | u3 <;>
          rcases attrUrl e nmAriaLabel with _ | u4 <;>
            rcases attrUrl e nmTitle with _ | u5 <;> rfl

/-- C7 counterexample: a non-anchor element carrying only a
`link-destination` attribute whose value normalizes cleanly still yields no
URL — the code's attribute list does not contain `link-destination`. -/
theorem link_destination_attr_not_inspected_cex :
    extractUrlFromElement elemLinkDest [] = none ∧
    getAttribute elemLinkDest (("link-destination").toList) =
      some (("http://ld.example/").toList) ∧
    normalizeUrl (("http://ld.example/").toList) =
      some (("http://ld.example/").toList) := by
  decide

/-! ## URL model: character and list lemmas -/

theorem lcChar_toNat_of_upper (c : Char) (h : 65 ≤ c.toNat ∧ c.toNat ≤ 90) :
    (lcChar c).toNat = c.toNat + 32 := by
  unfold lcChar
  rw [if_pos h]
  have hv : Nat.isValidChar (c.toNat + 32) := Or.inl (by omega)
  simp only [Char.ofNat]
  rw [dif_pos hv]
  simp [Char.ofNatAux, Char.toNat, UInt32.toNat, BitVec.toNat_ofNat]

theorem lcChar_not_upper (c : Char) (h : ¬(65 ≤ c.toNat ∧ c.toNat ≤ 90)) :
    lcChar c = c := by
  unfold lcChar
  rw [if_neg h]

theorem lcChar_lcChar (c : Char) : lcChar (lcChar c) = lcChar c := by
  by_cases h : 65 ≤ c.toNat ∧ c.toNat ≤ 90
  · have ht := lcChar_toNat_of_upper c h
    apply lcChar_not_upper
    rw [ht]
    omega
  · rw [lcChar_not_upper c h, lcChar_not_upper c h]

theorem map_lcChar_idem (l : Str) : (l.map lcChar).map lcChar = l.map lcChar := by
  induction l with
  | nil => rfl
  | cons c cs ih => simp [lcChar_lcChar, ih]

theorem digit_ne (c : Char) (h : digitB c = true) (d : Char) (hd : digitB d = false) :
    c ≠ d := by
  intro he
  subst he
  rw [h] at hd
  cases hd

theorem digit_not_ws (c : Char) (h : digitB c = true) : isWsChar c = false := by
  cases hw : isWsChar c
  · rfl
  · exfalso
    have hc := hw
    simp only [isWsChar, Bool.or_eq_true, decide_eq_true_eq] at hc
    rcases hc with ((rfl | rfl) | rfl) | rfl <;> exact absurd h (by decide)

theorem tabNL_is_ws (c : Char) (h : isWsChar c = false) : isTabNL c = false := by
  cases ht : isTabNL c
  · rfl
  · exfalso
    have hc := ht
    simp only [isTabNL, Bool.or_eq_true, decide_eq_true_eq] at hc
    rcases hc with (rfl | rfl) | rfl <;> simp [isWsChar] at h

theorem badHost_false_ne (c : Char) (h : badHostChar c = false) :
    c ≠ '/' ∧ c ≠ '?' ∧ c ≠ '#' ∧ c ≠ ':' ∧ c ≠ '@' ∧ isWsChar c = false := by
  have h' := h
  simp only [badHostChar, Bool.or_eq_false_iff, decide_eq_false_iff_not] at h'
  refine ⟨?_, ?_, ?_, ?_, ?_, ?_⟩
  · exact h'.1.1.1.1.1.1.1.1.1.1.1.2
  · exact h'.1.1.1.1.1.1.1.1.1.2
  · exact h'.1.1.1.1.1.1.1.1.1.1.1.1.2
  · exact h'.1.1.1.1.1.1.1.1.1.1.2
  · exact h'.1.1.1.1.1.1.1.1.2
  · simp only [isWsChar, Bool.or_eq_false_iff, decide_eq_false_iff_not]
    exact ⟨⟨⟨h'.1.1.1.1.1.1.1.1.1.1.1.1.1.1.1.1, h'.1.1.1.1.1.1.1.1.1.1.1.1.1.1.1.2⟩,
      h'.1.1.1.1.1.1.1.1.1.1.1.1.1.1.2⟩, h'.1.1.1.1.1.1.1.1.1.1.1.1.1.2⟩

theorem dropWhile_eq_self_of (p : Char → Bool) (l : Str)
    (h : ∀ c ∈ l, p c = false) : l.dropWhile p = l := by
  cases l with
  | nil => rfl
  | cons c cs =>
    rw [List.dropWhile_cons_of_neg]
    simp [h c (by simp)]

theorem trimStr_eq_self (l : Str) (h : ∀ c ∈ l, isWsChar c = false) :
    trimStr l = l := by
  unfold trimStr
  rw [dropWhile_eq_self_of _ _ h,
    dropWhile_eq_self_of _ _ (fun c hc => h c (by simpa using hc)),
    List.reverse_reverse]

theorem removeTabNL_eq_self (l : Str) (h : ∀ c ∈ l, isTabNL c = false) :
    removeTabNL l = l := by
  unfold removeTabNL
  apply List.filter_eq_self.mpr
  intro c hc
  simp [h c hc]

theorem removeTabNL_mem (l : Str) (c : Char) (h : c ∈ removeTabNL l) :
    c ∈ l ∧ isTabNL c = false := by
  unfold removeTabNL at h
  refine ⟨List.mem_of_mem_filter h, ?_⟩
  have := List.of_mem_filter h
  simpa using this

/-! ## URL model: splitter lemmas -/

theorem splitFirstKeep_append (p : Char → Bool) (l : Str) :
    (splitFirstKeep p l).1 ++ (splitFirstKeep p l).2 = l := by
  induction l with
  | nil => rfl
  | cons c cs ih =>
    unfold splitFirstKeep
    split_ifs with h
    · rfl
    · simpa using ih

theorem splitFirstKeep_fst_not (p : Char → Bool) (l : Str) :
    ∀ c ∈ (splitFirstKeep p l).1, p c = false := by
  induction l with
  | nil => simp [splitFirstKeep]
  | cons c cs ih =>
    unfold splitFirstKeep
    split_ifs with h
    · simp
    · intro x hx
      have hx' : x = c ∨ x ∈ (splitFirstKeep p cs).1 := by simpa using hx
      rcases hx' with rfl | hx'
      · simpa using h
      · exact ih x hx'

theorem splitFirstKeep_snd_head (p : Char → Bool) (l : Str) :
    ∀ c cs, (splitFirstKeep p l).2 = c :: cs → p c = true := by
  induction l with
  | nil => simp [splitFirstKeep]
  | cons x xs ih =>
    unfold splitFirstKeep
    split_ifs with h
    · intro c cs hc
      have hc' : x :: xs = c :: cs := hc
      injection hc' with h1 _
      rw [← h1]
      exact h
    · exact ih

theorem splitFirstKeep_eq (p : Char → Bool) (a b : Str)
    (ha : ∀ c ∈ a, p c = false)
    (hb : b = [] ∨ ∃ c cs, b = c :: cs ∧ p c = true) :
    splitFirstKeep p (a ++ b) = (a, b) := by
  induction a with
  | nil =>
    rcases hb with rfl | ⟨c, cs, rfl, hc⟩
    · rfl
    · show splitFirstKeep p (c :: cs) = ([], c :: cs)
      unfold splitFirstKeep
      rw [if_pos hc]
  | cons x xs ih =>
    have hx : p x = false := ha x (by simp)
    show splitFirstKeep p (x :: (xs ++ b)) = (x :: xs, b)
    unfold splitFirstKeep
    rw [if_neg (by simp [hx])]
    rw [ih (fun c hc => ha c (by simp [hc]))]

theorem splitFirstDrop_not_mem (d : Char) (l : Str) (h : d ∉ l) :
    splitFirstDrop d l = (l, none) := by
  induction l with
  | nil => rfl
  | cons c cs ih =>
    unfold splitFirstDrop
    rw [if_neg (show ¬c = d from by
      intro he
      exact h (by rw [← he]; exact List.mem_cons_self c cs))]
    rw [ih (fun hm => h (List.mem_cons_of_mem c hm))]

theorem splitFirstDrop_append (d : Char) (a b : Str) (ha : d ∉ a) :
    splitFirstDrop d (a ++ d :: b) = (a, some b) := by
  induction a with
  | nil =>
    show splitFirstDrop d (d :: b) = ([], some b)
    unfold splitFirstDrop
    rw [if_pos rfl]
  | cons x xs ih =>
    show splitFirstDrop d (x :: (xs ++ d :: b)) = (x :: xs, some b)
    unfold splitFirstDrop
    rw [if_neg (show ¬x = d from by
      intro he
      exact ha (by rw [← he]; exact List.mem_cons_self x xs))]
    rw [ih (fun hm => ha (List.mem_cons_of_mem x hm))]

theorem splitFirstDrop_decomp (d : Char) (l : Str) :
    l = (splitFirstDrop d l).1 ++
      (match (splitFirstDrop d l).2 with
       | none => []
       | some r => d :: r) := by
  induction l with
  | nil => rfl
  | cons c cs ih =>
    unfold splitFirstDrop
    split_ifs with h
    · subst h
      simp
    · simpa using ih

theorem splitFirstDrop_fst_not (d : Char) (l : Str) :
    d ∉ (splitFirstDrop d l).1 := by
  induction l with
  | nil => simp [splitFirstDrop]
  | cons c cs ih =>
    unfold splitFirstDrop
    split_ifs with h
    · simp
    · intro hm
      have : d = c ∨ d ∈ (splitFirstDrop d cs).1 := by simpa using hm
      rcases this with rfl | hm'
      · exact h rfl
      · exact ih hm'

theorem splitLastDrop_not_mem (d : Char) (l : Str) (h : d ∉ l) :
    splitLastDrop d l = none := by
  induction l with
  | nil => rfl
  | cons c cs ih =>
    unfold splitLastDrop
    rw [ih (fun hm => h (List.mem_cons_of_mem c hm))]
    rw [if_neg (show ¬c = d from by
      intro he
      exact h (by rw [← he]; exact List.mem_cons_self c cs))]

theorem splitLastDrop_append (d : Char) (a b : Str) (hb : d ∉ b) :
    splitLastDrop d (a ++ d :: b) = some (a, b) := by
  induction a with
  | nil =>
    show splitLastDrop d (d :: b) = some ([], b)
    unfold splitLastDrop
    rw [splitLastDrop_not_mem d b hb]
    rw [if_pos rfl]
  | cons x xs ih =>
    show splitLastDrop d (x :: (xs ++ d :: b)) = some (x :: xs, b)
    unfold splitLastDrop
    rw [ih]

theorem splitLastDrop_none (d : Char) (l : Str) (h : splitLastDrop d l = none) :
    d ∉ l := by
  induction l with
  | nil => simp
  | cons c cs ih =>
    intro hm
    have hm' : d = c ∨ d ∈ cs := by simpa using hm
    unfold splitLastDrop at h
    cases hr : splitLastDrop d cs with
    | some r =>
      rw [hr] at h
      cases h
    | none =>
      rw [hr] at h
      rcases hm' with rfl | hm'
      · rw [if_pos rfl] at h
        cases h
      · exact ih hr hm'

theorem splitLastDrop_some (d : Char) (l a b : Str)
    (h : splitLastDrop d l = some (a, b)) : l = a ++ d :: b ∧ d ∉ b := by
  induction l generalizing a b with
  | nil => cases h
  | cons c cs ih =>
    unfold splitLastDrop at h
    cases hr : splitLastDrop d cs with
    | some r =>
      rw [hr] at h
      have ha : a = c :: r.1 ∧ b = r.2 := by
        have h2 := Option.some.inj h
        exact ⟨congrArg Prod.fst h2.symm, congrArg Prod.snd h2.symm⟩
      obtain ⟨rfl, rfl⟩ := ha
      have hi := ih r.1 r.2 (by rw [hr])
      exact ⟨by rw [List.cons_append, ← hi.1], hi.2⟩
    | none =>
      rw [hr] at h
      split_ifs at h with hc
      · subst hc
        have ha : a = [] ∧ b = cs := by
          have h2 := Option.some.inj h
          exact ⟨congrArg Prod.fst h2.symm, congrArg Prod.snd h2.symm⟩
        obtain ⟨rfl, rfl⟩ := ha
        exact ⟨rfl, splitLastDrop_none _ _ hr⟩

/-! encSpaces lemmas -/

theorem encSpaces_eq_self (l : Str) (h : ∀ c ∈ l, ¬c = ' ') : encSpaces l = l := by
  induction l with
  | nil => rfl
  | cons c cs ih =>
    unfold encSpaces
    rw [if_neg (h c (by simp))]
    rw [ih (fun x hx => h x (by simp [hx]))]

theorem encSpaces_mem (l : Str) (c : Char) (h : c ∈ encSpaces l) :
    c ∈ l ∨ c = '%' ∨ c = '2' ∨ c = '0' := by
  induction l with
  | nil => cases h
  | cons x xs ih =>
    unfold encSpaces at h
    split_ifs at h with hx
    · have : c = '%' ∨ c = '2' ∨ c = '0' ∨ c ∈ encSpaces xs := by simpa using h
      rcases this with rfl | rfl | rfl | hm
      · exact Or.inr (Or.inl rfl)
      · exact Or.inr (Or.inr (Or.inl rfl))
      · exact Or.inr (Or.inr (Or.inr rfl))
      · rcases ih hm with hm' | hr
        · exact Or.inl (by simp [hm'])
        · exact Or.inr hr
    · have : c = x ∨ c ∈ encSpaces xs := by simpa using h
      rcases this with rfl | hm
      · exact Or.inl (by simp)
      · rcases ih hm with hm' | hr
        · exact Or.inl (by simp [hm'])
        · exact Or.inr hr

theorem encSpaces_no_space (l : Str) : ∀ c ∈ encSpaces l, ¬c = ' ' := by
  induction l with
  | nil => simp [encSpaces]
  | cons x xs ih =>
    unfold encSpaces
    split_ifs with hx
    · intro c hc
      have : c = '%' ∨ c = '2' ∨ c = '0' ∨ c ∈ encSpaces xs := by simpa using hc
      rcases this with rfl | rfl | rfl | hm
      · decide
      · decide
      · decide
      · exact ih c hm
    · intro c hc
      have : c = x ∨ c ∈ encSpaces xs := by simpa using hc
      rcases this with rfl | hm
      · exact hx
      · exact ih c hm

/-! portCanon lemmas -/

theorem portCanon_ne_nil (l : Str) : portCanon l ≠ [] := by
  unfold portCanon
  cases h : l.dropWhile (fun c => c = '0') with
  | nil => simp
  | cons c cs => simp

theorem portCanon_idem (l : Str) : portCanon (portCanon l) = portCanon l := by
  unfold portCanon
  cases h : l.dropWhile (fun c => c = '0') with
  | nil => rfl
  | cons c cs =>
    have hc : ¬(c = '0') := by
      have := List.head?_dropWhile_not (fun c => c = '0') l
      rw [h] at this
      simpa using this
    rw [List.dropWhile_cons_of_neg (by simpa using hc)]

theorem portCanon_digits (l : Str) (h : l.all digitB = true) :
    (portCanon l).all digitB = true := by
  unfold portCanon
  cases hd : l.dropWhile (fun c => c = '0') with
  | nil => decide
  | cons c cs =>
    rw [List.all_eq_true] at h ⊢
    intro x hx
    have hsub : x ∈ l := by
      have hs := List.dropWhile_sublist (l := l) (p := fun c => c = '0')
      exact hs.mem (by rw [hd]; exact hx)
    exact h x hsub

/-! dropPrefixCI lemmas -/

theorem dropPrefixCI_mem (pre s r : Str) (h : dropPrefixCI pre s = some r) :
    ∀ c ∈ r, c ∈ s := by
  induction pre generalizing s with
  | nil =>
    cases h
    intro c hc
    exact hc
  | cons p ps ih =>
    cases s with
    | nil => cases h
    | cons x xs =>
      unfold dropPrefixCI at h
      split_ifs at h with hx
      intro c hc
      exact List.mem_cons_of_mem x (ih xs h c hc)


/-! ## URL model: reparse of a serialised URL -/

theorem ws_false_ne_space (c : Char) (h : isWsChar c = false) : ¬c = ' ' := by
  intro he
  subst he
  simp [isWsChar] at h

theorem authEnd_false_of (c : Char) (h1 : ¬c = '/') (h2 : ¬c = '?') (h3 : ¬c = '#') :
    isAuthEnd c = false := by
  simp [isAuthEnd, h1, h2, h3]

theorem any_false_mem (p : Char → Bool) (l : Str) (h : l.any p = false) :
    ∀ c ∈ l, p c = false := by
  intro c hc
  cases hb : p c with
  | false => rfl
  | true =>
    exfalso
    have h2 : l.any p = true := List.any_eq_true.mpr ⟨c, hc, hb⟩
    rw [h] at h2
    cases h2

theorem all_true_mem (p : Char → Bool) (l : Str) (h : l.all p = true) :
    ∀ c ∈ l, p c = true := by
  intro c hc
  exact List.all_eq_true.mp h c hc

theorem digit_not_mem (l : Str) (hall : l.all digitB = true) (d : Char)
    (hd : digitB d = false) : d ∉ l := by
  intro hm
  have hdd := all_true_mem digitB l hall d hm
  rw [hdd] at hd
  cases hd

theorem uiPart_mem (ui : Option Str) (c : Char) (h : c ∈ uiPart ui) :
    (∃ x, ui = some x ∧ c ∈ x) ∨ c = '@' := by
  cases ui with
  | none => cases h
  | some x =>
    have h' : c ∈ x ++ ['@'] := h
    rcases List.mem_append.mp h' with hx | ha
    · exact Or.inl ⟨x, rfl, hx⟩
    · exact Or.inr (by simpa using ha)

theorem portPart_mem (port : Option Str) (c : Char) (h : c ∈ portPart port) :
    (∃ p, port = some p ∧ c ∈ p) ∨ c = ':' := by
  cases port with
  | none => cases h
  | some p =>
    have h' : c ∈ ':' :: p := h
    rcases (by simpa using h' : c = ':' ∨ c ∈ p) with h'' | hp
    · exact Or.inr h''
    · exact Or.inl ⟨p, rfl, hp⟩

theorem queryPart_mem (query : Option Str) (c : Char) (h : c ∈ queryPart query) :
    (∃ q, query = some q ∧ c ∈ q) ∨ c = '?' := by
  cases query with
  | none => cases h
  | some q =>
    have h' : c ∈ '?' :: q := h
    rcases (by simpa using h' : c = '?' ∨ c ∈ q) with h'' | hq
    · exact Or.inr h''
    · exact Or.inl ⟨q, rfl, hq⟩

theorem fragPart_mem (frag : Option Str) (c : Char) (h : c ∈ fragPart frag) :
    (∃ f, frag = some f ∧ c ∈ f) ∨ c = '#' := by
  cases frag with
  | none => cases h
  | some f =>
    have h' : c ∈ '#' :: f := h
    rcases (by simpa using h' : c = '#' ∨ c ∈ f) with h'' | hf
    · exact Or.inr h''
    · exact Or.inl ⟨f, rfl, hf⟩

theorem parseAfterScheme_reparse (sec : Bool) (ui : Option Str) (host : Str)
    (port : Option Str) (path : Str) (query frag : Option Str)
    (w : UrlWF ⟨sec, ui, host, port, path, query, frag⟩) :
    parseAfterScheme sec
      ((uiPart ui ++ (host ++ portPart port)) ++
       (path ++ (queryPart query ++ fragPart frag))) =
      some ⟨sec, ui, host, port, path, query, frag⟩ := by
  obtain ⟨rest0, hpath0⟩ := w.path_head
  have hpath : path = '/' :: rest0 := hpath0
  have wHostLc : host.map lcChar = host := w.host_lc
  have wHostNe : host ≠ [] := w.host_ne
  have wHostClean : host.any badHostChar = false := w.host_clean
  have hostBad := any_false_mem badHostChar host w.host_clean
  have hostNe := fun c hc => badHost_false_ne c (hostBad c hc)
  have hAmem : ∀ c ∈ uiPart ui ++ (host ++ portPart port), isAuthEnd c = false := by
    intro c hc
    rcases List.mem_append.mp hc with hcu | hch
    · rcases uiPart_mem ui c hcu with ⟨x, hx, hcx⟩ | rfl
      · have hcl := w.ui_clean x hx c hcx
        exact authEnd_false_of c hcl.1 hcl.2.1 hcl.2.2.1
      · decide
    · rcases List.mem_append.mp hch with hch2 | hcp
      · have hcl := hostNe c hch2
        exact authEnd_false_of c hcl.1 hcl.2.1 hcl.2.2.1
      · rcases portPart_mem port c hcp with ⟨p, hp, hcd⟩ | rfl
        · have hd := all_true_mem digitB p (w.port_wf p hp).1 c hcd
          exact authEnd_false_of c (digit_ne c hd '/' (by decide))
            (digit_ne c hd '?' (by decide)) (digit_ne c hd '#' (by decide))
        · decide
  have hauth : splitFirstKeep isAuthEnd
      ((uiPart ui ++ (host ++ portPart port)) ++
       (path ++ (queryPart query ++ fragPart frag))) =
      (uiPart ui ++ (host ++ portPart port),
       path ++ (queryPart query ++ fragPart frag)) := by
    apply splitFirstKeep_eq _ _ _ hAmem
    right
    refine ⟨'/', rest0 ++ (queryPart query ++ fragPart frag), ?_, by decide⟩
    rw [hpath]
    rfl
  have hatq : '@' ∉ host ++ portPart port := by
    intro hm
    rcases List.mem_append.mp hm with hm | hm
    · exact (hostNe '@' hm).2.2.2.2.1 rfl
    · rcases portPart_mem port '@' hm with ⟨p, hp, hmd⟩ | he
      · exact digit_not_mem p (w.port_wf p hp).1 '@' (by decide) hmd
      · cases he
  have hui : (match splitLastDrop '@' (uiPart ui ++ (host ++ portPart port)) with
      | some r => (some r.1, r.2)
      | none => ((none : Option Str), uiPart ui ++ (host ++ portPart port))) =
      (ui, host ++ portPart port) := by
    cases ui with
    | none =>
      show (match splitLastDrop '@' ([] ++ (host ++ portPart port)) with
        | some r => (some r.1, r.2)
        | none => ((none : Option Str), [] ++ (host ++ portPart port))) = _
      rw [List.nil_append, splitLastDrop_not_mem '@' _ hatq]
    | some x =>
      show (match splitLastDrop '@' ((x ++ ['@']) ++ (host ++ portPart port)) with
        | some r => (some r.1, r.2)
        | none => ((none : Option Str), (x ++ ['@']) ++ (host ++ portPart port))) = _
      have hassoc : (x ++ ['@']) ++ (host ++ portPart port) =
          x ++ '@' :: (host ++ portPart port) := by
        simp [List.append_assoc]
      rw [hassoc, splitLastDrop_append '@' _ _ hatq]
  have hcol : ':' ∉ host := fun hm => (hostNe ':' hm).2.2.2.1 rfl
  have hhp : splitFirstDrop ':' (host ++ portPart port) = (host, port) := by
    cases port with
    | none =>
      show splitFirstDrop ':' (host ++ []) = (host, none)
      rw [List.append_nil]
      exact splitFirstDrop_not_mem ':' host hcol
    | some p =>
      exact splitFirstDrop_append ':' host p hcol
  have hpp : parsePort sec port = some port := by
    cases port with
    | none => rfl
    | some p =>
      obtain ⟨hall, hcanon, hval, hdef⟩ := w.port_wf p rfl
      cases p with
      | nil =>
        exfalso
        exact portCanon_ne_nil [] hcanon
      | cons c0 cs0 =>
        have hdef2 : c0 :: cs0 ≠ defPort sec := hdef
        show parsePort sec (some (c0 :: cs0)) = some (some (c0 :: cs0))
        unfold parsePort
        dsimp only
        rw [if_pos hall, hcanon, if_pos hval, if_neg hdef2]
  have hnopath1 : '#' ∉ path := fun hm => (w.path_clean '#' hm).2.1 rfl
  have hnopath2 : '?' ∉ path := fun hm => (w.path_clean '?' hm).1 rfl
  have hnoq : '#' ∉ queryPart query := by
    intro hm
    rcases queryPart_mem query '#' hm with ⟨q, hq, hmq⟩ | he
    · exact (w.query_clean q hq '#' hmq).1 rfl
    · cases he
  have hbf : splitFirstDrop '#' (path ++ (queryPart query ++ fragPart frag)) =
      (path ++ queryPart query, frag) := by
    cases frag with
    | none =>
      show splitFirstDrop '#' (path ++ (queryPart query ++ [])) = _
      rw [List.append_nil]
      rw [splitFirstDrop_not_mem '#' _ (by
        intro hm
        rcases List.mem_append.mp hm with hm | hm
        · exact hnopath1 hm
        · exact hnoq hm)]
    | some f =>
      show splitFirstDrop '#' (path ++ (queryPart query ++ '#' :: f)) = _
      have hassoc : path ++ (queryPart query ++ '#' :: f) =
          (path ++ queryPart query) ++ '#' :: f := by
        simp [List.append_assoc]
      rw [hassoc, splitFirstDrop_append '#' _ f (by
        intro hm
        rcases List.mem_append.mp hm with hm | hm
        · exact hnopath1 hm
        · exact hnoq hm)]
  have hpq : splitFirstDrop '?' (path ++ queryPart query) = (path, query) := by
    cases query with
    | none =>
      show splitFirstDrop '?' (path ++ []) = _
      rw [List.append_nil]
      exact splitFirstDrop_not_mem '?' path hnopath2
    | some q =>
      exact splitFirstDrop_append '?' path q hnopath2
  have hpathne : path ≠ [] := by
    rw [hpath]
    simp
  have hencp : encSpaces path = path :=
    encSpaces_eq_self path
      (fun c hc => ws_false_ne_space c (w.path_clean c hc).2.2)
  have hencui : ui.map encSpaces = ui := by
    cases ui with
    | none => rfl
    | some x =>
      show some (encSpaces x) = some x
      rw [encSpaces_eq_self x
        (fun c hc => ws_false_ne_space c (w.ui_clean x rfl c hc).2.2.2)]
  have hencq : query.map encSpaces = query := by
    cases query with
    | none => rfl
    | some q =>
      show some (encSpaces q) = some q
      rw [encSpaces_eq_self q
        (fun c hc => ws_false_ne_space c (w.query_clean q rfl c hc).2)]
  have hencf : frag.map encSpaces = frag := by
    cases frag with
    | none => rfl
    | some f =>
      show some (encSpaces f) = some f
      rw [encSpaces_eq_self f
        (fun c hc => ws_false_ne_space c (w.frag_clean f rfl c hc))]
  unfold parseAfterScheme
  rw [hauth]
  dsimp only
  rw [hui]
  dsimp only
  rw [hhp]
  dsimp only
  rw [wHostLc]
  rw [if_neg wHostNe]
  rw [wHostClean]
  rw [if_neg (by simp)]
  rw [hpp]
  dsimp only
  rw [hbf]
  dsimp only
  rw [hpq]
  dsimp only
  rw [if_neg hpathne]
  rw [hencp, hencui, hencq, hencf]

/-! ## Serialisation is clean and keeps its scheme prefix -/

theorem ws_free_httpPre : ∀ c ∈ httpPre, isWsChar c = false := by decide

theorem ws_free_httpsPre : ∀ c ∈ httpsPre, isWsChar c = false := by decide

theorem serialize_ws_free (u : UrlM) (w : UrlWF u) :
    ∀ c ∈ serializeUrlM u, isWsChar c = false := by
  obtain ⟨sec, ui, host, port, path, query, frag⟩ := u
  have hostBad := any_false_mem badHostChar host w.host_clean
  intro c hc
  unfold serializeUrlM at hc
  dsimp only at hc
  simp only [List.mem_append] at hc
  rcases hc with ((((((h | h) | h) | h) | h) | h) | h)
  · split_ifs at h
    · exact ws_free_httpsPre c h
    · exact ws_free_httpPre c h
  · rcases uiPart_mem ui c h with ⟨x, hx, hcx⟩ | rfl
    · exact (w.ui_clean x hx c hcx).2.2.2
    · decide
  · exact (badHost_false_ne c (hostBad c h)).2.2.2.2.2
  · rcases portPart_mem port c h with ⟨p, hp, hcd⟩ | rfl
    · exact digit_not_ws c (all_true_mem digitB p (w.port_wf p hp).1 c hcd)
    · decide
  · exact (w.path_clean c h).2.2
  · rcases queryPart_mem query c h with ⟨q, hq, hcq⟩ | rfl
    · exact (w.query_clean q hq c hcq).2
    · decide
  · rcases fragPart_mem frag c h with ⟨f, hf, hcf⟩ | rfl
    · exact w.frag_clean f hf c hcf
    · decide

theorem dropPrefixCI_http_self (r : Str) :
    dropPrefixCI httpPre (httpPre ++ r) = some r := rfl

theorem dropPrefixCI_https_self (r : Str) :
    dropPrefixCI httpsPre (httpsPre ++ r) = some r := rfl

theorem dropPrefixCI_https_on_http (r : Str) :
    dropPrefixCI httpsPre (httpPre ++ r) = none := rfl

theorem serialize_split (sec : Bool) (ui : Option Str) (host : Str)
    (port : Option Str) (path : Str) (query frag : Option Str) :
    serializeUrlM ⟨sec, ui, host, port, path, query, frag⟩ =
      (if sec then httpsPre else httpPre) ++
        ((uiPart ui ++ (host ++ portPart port)) ++
         (path ++ (queryPart query ++ fragPart frag))) := by
  unfold serializeUrlM
  dsimp only
  simp [List.append_assoc]

theorem parseUrlM_serialize (u : UrlM) (w : UrlWF u) :
    parseUrlM (serializeUrlM u) = some u := by
  obtain ⟨sec, ui, host, port, path, query, frag⟩ := u
  have hclean : removeTabNL (serializeUrlM ⟨sec, ui, host, port, path, query, frag⟩) =
      serializeUrlM ⟨sec, ui, host, port, path, query, frag⟩ :=
    removeTabNL_eq_self _
      (fun c hc => tabNL_is_ws c (serialize_ws_free _ w c hc))
  unfold parseUrlM
  dsimp only
  rw [hclean]
  rw [serialize_split]
  cases sec with
  | true =>
    rw [if_pos rfl]
    rw [dropPrefixCI_https_self]
    exact parseAfterScheme_reparse true ui host port path query frag w
  | false =>
    rw [if_neg (by simp)]
    rw [dropPrefixCI_https_on_http, dropPrefixCI_http_self]
    exact parseAfterScheme_reparse false ui host port path query frag w

theorem hasHttp_serialize (u : UrlM) : hasHttpPrefixCI (serializeUrlM u) = true := by
  obtain ⟨sec, ui, host, port, path, query, frag⟩ := u
  rw [serialize_split]
  cases sec with
  | true =>
    rw [if_pos rfl]
    unfold hasHttpPrefixCI
    rw [dropPrefixCI_https_self]
    simp
  | false =>
    rw [if_neg (by simp)]
    unfold hasHttpPrefixCI
    rw [dropPrefixCI_http_self]
    simp

/-! ## URL model: the parser's output is well-formed -/

theorem ws_false_of (c : Char) (hsp : ¬c = ' ') (ht : isTabNL c = false) :
    isWsChar c = false := by
  simp only [isTabNL, Bool.or_eq_false_iff, decide_eq_false_iff_not] at ht
  simp [isWsChar, hsp, ht.1.1, ht.1.2, ht.2]

theorem authEnd_cases (c : Char) (h : isAuthEnd c = true) :
    c = '/' ∨ c = '?' ∨ c = '#' := by
  simp only [isAuthEnd, Bool.or_eq_true, decide_eq_true_eq] at h
  tauto

theorem authEnd_false_ne (c : Char) (h : isAuthEnd c = false) :
    ¬c = '/' ∧ ¬c = '?' ∧ ¬c = '#' := by
  simp only [isAuthEnd, Bool.or_eq_false_iff, decide_eq_false_iff_not] at h
  exact ⟨h.1.1, h.1.2, h.2⟩

theorem encSpaces_cons_ne (c : Char) (t : Str) (h : ¬c = ' ') :
    encSpaces (c :: t) = c :: encSpaces t := by
  have he : encSpaces (c :: t) =
      if c = ' ' then '%' :: '2' :: '0' :: encSpaces t else c :: encSpaces t := rfl
  rw [he, if_neg h]

theorem splitFirstDrop_some_decomp (d : Char) (l r : Str)
    (h : (splitFirstDrop d l).2 = some r) :
    l = (splitFirstDrop d l).1 ++ d :: r := by
  have hd := splitFirstDrop_decomp d l
  rw [h] at hd
  exact hd

theorem splitFirstDrop_none_decomp (d : Char) (l : Str)
    (h : (splitFirstDrop d l).2 = none) :
    l = (splitFirstDrop d l).1 := by
  have hd := splitFirstDrop_decomp d l
  rw [h] at hd
  simpa using hd

theorem splitFirstDrop_fst_head (d : Char) (l : Str) (c : Char) (cs : Str)
    (h : (splitFirstDrop d l).1 = c :: cs) : ∃ t, l = c :: t := by
  have hd := splitFirstDrop_decomp d l
  rw [h] at hd
  exact ⟨cs ++ _, hd⟩

theorem splitFirstDrop_fst_mem (d : Char) (l : Str) (c : Char)
    (h : c ∈ (splitFirstDrop d l).1) : c ∈ l := by
  rw [splitFirstDrop_decomp d l]
  exact List.mem_append_left _ h

theorem parsePort_wf (sec : Bool) (po : Option Str) (r : Option Str)
    (h : parsePort sec po = some r) :
    ∀ p, r = some p → p.all digitB = true ∧ portCanon p = p ∧
      portVal p ≤ 65535 ∧ p ≠ defPort sec := by
  intro p hp
  subst hp
  cases po with
  | none => simp [parsePort] at h
  | some pd =>
    cases pd with
    | nil => simp [parsePort] at h
    | cons c0 cs0 =>
      unfold parsePort at h
      dsimp only at h
      split_ifs at h with h1 h2 h3
      · simp at h
      · have hp2 : portCanon (c0 :: cs0) = p := by simpa using h
        subst hp2
        exact ⟨portCanon_digits _ h1, portCanon_idem _, h2, h3⟩

theorem parseRest_wf (sec : Bool) (rest HP : Str) (uiv : Option Str)
    (T : Str) (u : UrlM)
    (hrest : ∀ c ∈ rest, isTabNL c = false)
    (_hmemHP : ∀ c ∈ HP, c ∈ rest)
    (hui : ∀ x, uiv = some x → ∀ c ∈ x, c ∈ rest ∧ isAuthEnd c = false)
    (hmemT : ∀ c ∈ T, c ∈ rest)
    (hThead : ∀ c cs, T = c :: cs → isAuthEnd c = true)
    (h : (if List.map lcChar (splitFirstDrop ':' HP).1 = [] then none
          else if (List.map lcChar (splitFirstDrop ':' HP).1).any badHostChar then
            none
          else
            match parsePort sec (splitFirstDrop ':' HP).2 with
            | none => none
            | some port =>
              some ⟨sec, uiv.map encSpaces,
                List.map lcChar (splitFirstDrop ':' HP).1, port,
                encSpaces
                  (if (splitFirstDrop '?' (splitFirstDrop '#' T).1).1 = [] then
                    ['/']
                  else (splitFirstDrop '?' (splitFirstDrop '#' T).1).1),
                ((splitFirstDrop '?' (splitFirstDrop '#' T).1).2).map encSpaces,
                ((splitFirstDrop '#' T).2).map encSpaces⟩) = some u) :
    UrlWF u := by
  have hmem_bf1 : ∀ c ∈ (splitFirstDrop '#' T).1, c ∈ T := by
    intro c hc
    rw [splitFirstDrop_decomp '#' T]
    exact List.mem_append_left _ hc
  have hmem_pq1 : ∀ c ∈ (splitFirstDrop '?' (splitFirstDrop '#' T).1).1,
      c ∈ (splitFirstDrop '#' T).1 :=
    fun c hc => splitFirstDrop_fst_mem '?' _ c hc
  by_cases h1 : List.map lcChar (splitFirstDrop ':' HP).1 = []
  · rw [if_pos h1] at h
    cases h
  rw [if_neg h1] at h
  by_cases h2 : (List.map lcChar (splitFirstDrop ':' HP).1).any badHostChar = true
  · rw [if_pos h2] at h
    cases h
  rw [if_neg h2] at h
  cases hpp : parsePort sec (splitFirstDrop ':' HP).2 with
  | none =>
    rw [hpp] at h
    cases h
  | some portv =>
    rw [hpp] at h
    have hu : u = ⟨sec, uiv.map encSpaces,
        List.map lcChar (splitFirstDrop ':' HP).1, portv,
        encSpaces
          (if (splitFirstDrop '?' (splitFirstDrop '#' T).1).1 = [] then ['/']
          else (splitFirstDrop '?' (splitFirstDrop '#' T).1).1),
        ((splitFirstDrop '?' (splitFirstDrop '#' T).1).2).map encSpaces,
        ((splitFirstDrop '#' T).2).map encSpaces⟩ := (Option.some.inj h).symm
    subst hu
    refine ⟨h1, map_lcChar_idem _, ?_, ?_, ?_, ?_, ?_, ?_, ?_⟩
    · exact Bool.not_eq_true _ ▸ h2
    · -- ui_clean
      intro ui' hui' c hc
      cases huiv : uiv with
      | none =>
        rw [huiv] at hui'
        cases hui'
      | some x =>
        rw [huiv] at hui'
        have hx : ui' = encSpaces x := by simpa using hui'.symm
        subst hx
        have hnsp := encSpaces_no_space x c hc
        rcases encSpaces_mem x c hc with hcx | hsp
        · have hinfo := hui x huiv c hcx
          have hne := authEnd_false_ne c hinfo.2
          exact ⟨hne.1, hne.2.1, hne.2.2,
            ws_false_of c hnsp (hrest c hinfo.1)⟩
        · rcases hsp with rfl | rfl | rfl <;> exact ⟨by decide, by decide, by decide, by decide⟩
    · -- port_wf
      intro p hp
      exact parsePort_wf sec _ portv hpp p hp
    · -- path_head
      by_cases hpq1 : (splitFirstDrop '?' (splitFirstDrop '#' T).1).1 = []
      · refine ⟨[], ?_⟩
        show encSpaces _ = _
        rw [if_pos hpq1]
        rfl
      · obtain ⟨c, t, hct⟩ := List.exists_cons_of_ne_nil hpq1
        obtain ⟨t1, ht1⟩ := splitFirstDrop_fst_head '?' _ c t hct
        obtain ⟨t2, ht2⟩ := splitFirstDrop_fst_head '#' T c t1 ht1
        have hAE : isAuthEnd c = true := hThead c t2 ht2
        have hcpq : c ∈ (splitFirstDrop '?' (splitFirstDrop '#' T).1).1 := by
          rw [hct]
          exact List.mem_cons_self c t
        have hcbf : c ∈ (splitFirstDrop '#' T).1 := by
          rw [ht1]
          exact List.mem_cons_self c t1
        have hcq : ¬c = '?' := by
          intro he
          rw [he] at hcpq
          exact splitFirstDrop_fst_not '?' _ hcpq
        have hch : ¬c = '#' := by
          intro he
          rw [he] at hcbf
          exact splitFirstDrop_fst_not '#' T hcbf
        rcases authEnd_cases c hAE with h' | h' | h'
        · subst h'
          refine ⟨encSpaces t, ?_⟩
          show encSpaces _ = _
          rw [if_neg hpq1, hct, encSpaces_cons_ne _ _ (by decide)]
        · exact absurd h' hcq
        · exact absurd h' hch
    · -- path_clean
      intro c hc
      have hnsp := encSpaces_no_space _ c hc
      rcases encSpaces_mem _ c hc with hcp | hsp
      · by_cases hpq1 : (splitFirstDrop '?' (splitFirstDrop '#' T).1).1 = []
        · rw [if_pos hpq1] at hcp
          have : c = '/' := by simpa using hcp
          subst this
          exact ⟨by decide, by decide, by decide⟩
        · rw [if_neg hpq1] at hcp
          have hcbf := hmem_pq1 c hcp
          refine ⟨?_, ?_, ?_⟩
          · intro he
            rw [he] at hcp
            exact splitFirstDrop_fst_not '?' _ hcp
          · intro he
            rw [he] at hcbf
            exact splitFirstDrop_fst_not '#' T hcbf
          · exact ws_false_of c hnsp (hrest c (hmemT c (hmem_bf1 c hcbf)))
      · rcases hsp with rfl | rfl | rfl <;> exact ⟨by decide, by decide, by decide⟩
    · -- query_clean
      intro q' hq' c hc
      cases hq0 : (splitFirstDrop '?' (splitFirstDrop '#' T).1).2 with
      | none =>
        rw [hq0] at hq'
        cases hq'
      | some q =>
        rw [hq0] at hq'
        have hx : q' = encSpaces q := by simpa using hq'.symm
        subst hx
        have hnsp := encSpaces_no_space q c hc
        rcases encSpaces_mem q c hc with hcq | hsp
        · have hcbf : c ∈ (splitFirstDrop '#' T).1 := by
            rw [splitFirstDrop_some_decomp '?' _ q hq0]
            exact List.mem_append_right _ (List.mem_cons_of_mem _ hcq)
          refine ⟨?_, ws_false_of c hnsp (hrest c (hmemT c (hmem_bf1 c hcbf)))⟩
          intro he
          rw [he] at hcbf
          exact splitFirstDrop_fst_not '#' T hcbf
        · rcases hsp with rfl | rfl | rfl <;> exact ⟨by decide, by decide⟩
    · -- frag_clean
      intro f' hf' c hc
      cases hf0 : (splitFirstDrop '#' T).2 with
      | none =>
        rw [hf0] at hf'
        cases hf'
      | some f =>
        rw [hf0] at hf'
        have hx : f' = encSpaces f := by simpa using hf'.symm
        subst hx
        have hnsp := encSpaces_no_space f c hc
        rcases encSpaces_mem f c hc with hcf | hsp
        · have hcT : c ∈ T := by
            rw [splitFirstDrop_some_decomp '#' T f hf0]
            exact List.mem_append_right _ (List.mem_cons_of_mem _ hcf)
          exact ws_false_of c hnsp (hrest c (hmemT c hcT))
        · rcases hsp with rfl | rfl | rfl <;> decide

theorem parseAfterScheme_wf (sec : Bool) (rest : Str) (u : UrlM)
    (hrest : ∀ c ∈ rest, isTabNL c = false)
    (h : parseAfterScheme sec rest = some u) : UrlWF u := by
  unfold parseAfterScheme at h
  dsimp only at h
  have hsplit := splitFirstKeep_append isAuthEnd rest
  have hAnot := splitFirstKeep_fst_not isAuthEnd rest
  have hmemA : ∀ c ∈ (splitFirstKeep isAuthEnd rest).1, c ∈ rest := by
    intro c hc
    rw [← hsplit]
    exact List.mem_append_left _ hc
  have hmemT : ∀ c ∈ (splitFirstKeep isAuthEnd rest).2, c ∈ rest := by
    intro c hc
    rw [← hsplit]
    exact List.mem_append_right _ hc
  cases hsl : splitLastDrop '@' (splitFirstKeep isAuthEnd rest).1 with
  | some r =>
    rw [hsl] at h
    dsimp only at h
    obtain ⟨hA, _⟩ := splitLastDrop_some '@' _ r.1 r.2 (by rw [hsl])
    have hmemr1 : ∀ c ∈ r.1, c ∈ (splitFirstKeep isAuthEnd rest).1 := by
      intro c hc
      rw [hA]
      exact List.mem_append_left _ hc
    have hmemr2 : ∀ c ∈ r.2, c ∈ (splitFirstKeep isAuthEnd rest).1 := by
      intro c hc
      rw [hA]
      exact List.mem_append_right _ (List.mem_cons_of_mem _ hc)
    exact parseRest_wf sec rest r.2 (some r.1) (splitFirstKeep isAuthEnd rest).2 u
      hrest (fun c hc => hmemA c (hmemr2 c hc))
      (fun x hx c hc => by
        have hcx : c ∈ r.1 := by
          rw [← Option.some.inj hx] at hc
          exact hc
        exact ⟨hmemA c (hmemr1 c hcx), hAnot c (hmemr1 c hcx)⟩)
      hmemT (splitFirstKeep_snd_head isAuthEnd rest) h
  | none =>
    rw [hsl] at h
    dsimp only at h
    exact parseRest_wf sec rest (splitFirstKeep isAuthEnd rest).1 none
      (splitFirstKeep isAuthEnd rest).2 u
      hrest hmemA (fun x hx => by cases hx)
      hmemT (splitFirstKeep_snd_head isAuthEnd rest) h

theorem parseUrlM_wf (s : Str) (u : UrlM) (h : parseUrlM s = some u) : UrlWF u := by
  unfold parseUrlM at h
  dsimp only at h
  have hclean : ∀ c ∈ removeTabNL s, isTabNL c = false :=
    fun c hc => (removeTabNL_mem s c hc).2
  cases hd : dropPrefixCI httpsPre (removeTabNL s) with
  | some rest =>
    rw [hd] at h
    exact parseAfterScheme_wf true rest u
      (fun c hc => hclean c (dropPrefixCI_mem httpsPre _ rest hd c hc)) h
  | none =>
    rw [hd] at h
    cases hd2 : dropPrefixCI httpPre (removeTabNL s) with
    | some rest =>
      rw [hd2] at h
      exact parseAfterScheme_wf false rest u
        (fun c hc => hclean c (dropPrefixCI_mem httpPre _ rest hd2 c hc)) h
    | none =>
      rw [hd2] at h
      cases h

/-! ## Claim theorem: URL normalization -/

/-- C6. `normalizeUrl` is idempotent on its successes — whenever it returns a
URL, normalizing that URL returns it unchanged — and it returns null both for
inputs whose trimmed form lacks a case-insensitive `http://`/`https://`
prefix and for inputs whose parse fails. -/
theorem normalize_url_idempotent_and_gated :
    (∀ s u, normalizeUrl s = some u → normalizeUrl u = some u) ∧
    (∀ s, hasHttpPrefixCI (trimStr s) = false → normalizeUrl s = none) ∧
    (∀ s, parseUrlM (trimStr s) = none → normalizeUrl s = none) := by
  refine ⟨?_, ?_, ?_⟩
  · intro s u h
    unfold normalizeUrl at h
    dsimp only at h
    by_cases hp : hasHttpPrefixCI (trimStr s) = true
    · rw [if_pos hp] at h
      cases hm : parseUrlM (trimStr s) with
      | none =>
        rw [hm] at h
        cases h
      | some m =>
        rw [hm] at h
        have hu : u = serializeUrlM m := by simpa using h.symm
        subst hu
        have wm : UrlWF m := parseUrlM_wf _ _ hm
        unfold normalizeUrl
        dsimp only
        rw [trimStr_eq_self _ (serialize_ws_free m wm)]
        rw [if_pos (hasHttp_serialize m)]
        rw [parseUrlM_serialize m wm]
        rfl
    · rw [if_neg hp] at h
      cases h
  · intro s h
    unfold normalizeUrl
    dsimp only
    rw [if_neg (by rw [h]; simp)]
  · intro s h
    unfold normalizeUrl
    dsimp only
    by_cases hp : hasHttpPrefixCI (trimStr s) = true
    · rw [if_pos hp, h]
      rfl
    · rw [if_neg hp]

/-- C6 witness: a concrete non-canonical input is normalized, and its output
is a fixed point; a prefix-free input and a malformed input yield null. -/
theorem normalize_url_idempotent_and_gated_witness :
    normalizeUrl (("  HTTP://ExAmPle.com").toList) =
      some (("http://example.com/").toList) ∧
    normalizeUrl (("http://example.com/").toList) =
      some (("http://example.com/").toList) ∧
    normalizeUrl (("ftp://x.y").toList) = none ∧
    normalizeUrl (("http://").toList) = none :=
  ⟨by decide,
   normalize_url_idempotent_and_gated.1 (("  HTTP://ExAmPle.com").toList)
     (("http://example.com/").toList) (by decide),
   normalize_url_idempotent_and_gated.2.1 (("ftp://x.y").toList) (by decide),
   normalize_url_idempotent_and_gated.2.2 (("http://").toList) (by decide)⟩

end UrlPreview
